import Mathlib

/-!
Course Planner (`main.cpp`): the binary search tree of courses and its loader.

A shallow embedding of `src/main.cpp`.

* `std::string` is a list of characters (`Str`), one `Char` standing for one byte.
  `operator<` on strings is `strLt` (lexicographic on the unsigned character codes, a proper
  prefix being smaller), `operator==` is equality of lists.
* `Node*` is the inductive type `Node`; `nullptr` is `Node.null`.
* `cout` is the string of the characters written so far; `endl` is a line feed.
* the file handed to `loadCourses` is `Option (List Str)`: `none` when the file cannot be
  opened, otherwise the lines that `getline(file, line)` delivers, in order.
-/

namespace CoursePlanner

/-- A `std::string`: the sequence of its characters. -/
abbrev Str := List Char

/-- The comparison `a < b` of two `std::string`s: the first position where the two differ
decides, by the unsigned code of the character; a proper prefix is smaller. -/
def strLt : Str → Str → Bool
  | [], [] => false
  | [], _ :: _ => true
  | _ :: _, [] => false
  | a :: as, b :: bs =>
    if a.toNat < b.toNat then true
    else if b.toNat < a.toNat then false
    else strLt as bs

/-- The class `Course`: course number, course name, list of prerequisite course numbers. -/
structure Course where
  courseNumber : Str
  courseName : Str
  prerequisites : List Str
  deriving DecidableEq, Repr

/-- A `Node*`: either `nullptr` or a node holding a course and two child pointers. -/
inductive Node where
  | null : Node
  | mk (course : Course) (left : Node) (right : Node) : Node
  deriving DecidableEq, Repr

/-- The course held by the node a pointer refers to; `none` for `nullptr`. -/
def Node.course? : Node → Option Course
  | Node.null => none
  | Node.mk c _ _ => some c

/-- The function `searchCourse(node, courseNumber)`: the node found, or `nullptr`. -/
def searchCourse : Node → Str → Node
  | Node.null, _ => Node.null
  | Node.mk c l r, courseNumber =>
    if c.courseNumber = courseNumber then Node.mk c l r
    else if strLt courseNumber c.courseNumber then searchCourse l courseNumber
    else searchCourse r courseNumber

/-- The function `addCourseToTree(node, course)`: the pointer `node` after the call. -/
def addCourseToTree : Node → Course → Node
  | Node.null, course => Node.mk course Node.null Node.null
  | Node.mk c l r, course =>
    if strLt course.courseNumber c.courseNumber then Node.mk c (addCourseToTree l course) r
    else Node.mk c l (addCourseToTree r course)

/-- The line `inOrderTraversal` prints for one node. -/
def courseLine (c : Course) : Str :=
  c.courseNumber ++ ", ".toList ++ c.courseName ++ ['\n']

/-- The function `inOrderTraversal(node)`: the characters it writes to `cout`. -/
def inOrderTraversal : Node → Str
  | Node.null => []
  | Node.mk c l r => inOrderTraversal l ++ courseLine c ++ inOrderTraversal r

/-- The courses of the nodes in the order in which `inOrderTraversal` visits them. -/
def inOrderVisit : Node → List Course
  | Node.null => []
  | Node.mk c l r => inOrderVisit l ++ c :: inOrderVisit r

/-- The loop `for (Course course : courses) addCourseToTree(root, course)`. -/
def addCourses : Node → List Course → Node
  | root, [] => root
  | root, course :: rest => addCourses (addCourseToTree root course) rest

/-- A `std::stringstream` being read: the characters not yet extracted and the two state
bits `eofbit` and `failbit`. -/
structure IStream where
  buf : Str
  eof : Bool
  fail : Bool
  deriving DecidableEq, Repr

/-- The extraction loop of `std::getline`: characters are moved from the buffer to the
string until the delimiter (extracted, not stored) or the end of the buffer (sets `eofbit`).
`extracted` tells whether a character was extracted before. -/
def getlineScan (delim : Char) : Str → Str → Bool → IStream × Str
  | [], str, extracted => ({ buf := [], eof := true, fail := !extracted }, str)
  | c :: rest, str, _ =>
    if c = delim then ({ buf := rest, eof := false, fail := false }, str)
    else getlineScan delim rest (str ++ [c]) true

/-- The function `std::getline(ss, str, delim)`: on a stream that is not `good()` it sets
`failbit` and leaves `str` alone; otherwise it erases `str` and extracts up to the
delimiter, setting `failbit` when nothing at all was extracted. -/
def getline (ss : IStream) (str : Str) (delim : Char) : IStream × Str :=
  if ss.eof || ss.fail then ({ ss with fail := true }, str)
  else getlineScan delim ss.buf [] false

/-- The loop `while (getline(ss, prerequisite, ',')) prerequisites.push_back(prerequisite)`,
with a bound on the number of iterations. -/
def readPrerequisites : Nat → IStream → Str → List Str → List Str
  | 0, _, _, prerequisites => prerequisites
  | fuel + 1, ss, prerequisite, prerequisites =>
    let r := getline ss prerequisite ','
    if r.1.fail then prerequisites
    else readPrerequisites fuel r.1 r.2 (prerequisites ++ [r.2])

/-- The body of the first-pass loop of `loadCourses` for one line, the prerequisite loop
being given `fuel` iterations: the course pushed to `courses`, or `none` when the line is
reported as invalid. -/
def parseLineWith (fuel : Nat) (line : Str) : Option Course :=
  let ss : IStream := { buf := line, eof := false, fail := false }
  let r1 := getline ss [] ','
  let r2 := getline r1.1 [] ','
  let prerequisites := readPrerequisites fuel r2.1 [] []
  if r1.2.isEmpty || r2.2.isEmpty then none
  else some { courseNumber := r1.2, courseName := r2.2, prerequisites := prerequisites }

/-- The body of the first-pass loop of `loadCourses` for one line. Every iteration of the
prerequisite loop but the last extracts a character, so `line.length + 1` iterations let the
loop end by a failed `getline` (`parseLine_fuel`). -/
def parseLine (line : Str) : Option Course := parseLineWith (line.length + 1) line

/-- The global state of the program: `root`, `courses` and what was written to `cout`. -/
structure Catalog where
  root : Node
  courses : List Course
  cout : Str
  deriving DecidableEq, Repr

/-- The state at program start. -/
def Catalog.initial : Catalog := { root := Node.null, courses := [], cout := [] }

/-- The diagnostic for a line without course number or course name. -/
def invalidFormatMsg : Str := "Error: Invalid course data format\n".toList

/-- The diagnostic for a file that cannot be opened. -/
def cannotOpenMsg : Str := "Error: Could not open the file.\n".toList

/-- The message that ends a load. -/
def loadedMsg : Str := "Courses loaded successfully.\n".toList

/-- The first pass of `loadCourses`: every line is parsed; a valid one is pushed to
`courses`, an invalid one is reported on `cout`. Returns `courses` and `cout`. -/
def firstPass : List Str → List Course → Str → List Course × Str
  | [], courses, cout => (courses, cout)
  | line :: rest, courses, cout =>
    match parseLine line with
    | none => firstPass rest courses (cout ++ invalidFormatMsg)
    | some newCourse => firstPass rest (courses ++ [newCourse]) cout

/-- The procedure `loadCourses(fileName)`, the file being given by what opening and reading
it delivers. -/
def loadCourses (s : Catalog) (file : Option (List Str)) : Catalog :=
  match file with
  | none => { s with cout := s.cout ++ cannotOpenMsg }
  | some lines =>
    let p := firstPass lines s.courses s.cout
    { root := addCourses s.root p.1, courses := p.1, cout := p.2 ++ loadedMsg }

/-- A course with the given number and name and no prerequisites. -/
def course0 (number name : String) : Course :=
  { courseNumber := number.toList, courseName := name.toList, prerequisites := [] }

/-- The comparison `a <= b` of two `std::string`s, which is `!(b < a)`. -/
def strLe (a b : Str) : Bool := !strLt b a

/-- The ordering that insertion maintains: in the left subtree of a node every course number
is smaller than the node's, in its right subtree none is smaller than the node's. -/
def weakBST : Node → Bool
  | Node.null => true
  | Node.mk c l r =>
    (inOrderVisit l).all (fun x => strLt x.courseNumber c.courseNumber) &&
    (inOrderVisit r).all (fun x => strLe c.courseNumber x.courseNumber) &&
    weakBST l && weakBST r

/-- The binary-search-tree property with strict inequalities on both sides: in the left
subtree of a node every course number is smaller than the node's, in its right subtree every
course number is greater. -/
def strictBST : Node → Bool
  | Node.null => true
  | Node.mk c l r =>
    (inOrderVisit l).all (fun x => strLt x.courseNumber c.courseNumber) &&
    (inOrderVisit r).all (fun x => strLt c.courseNumber x.courseNumber) &&
    strictBST l && strictBST r

/-- Whether a course has the given course number. -/
def hasNumber (k : Str) (c : Course) : Bool := decide (c.courseNumber = k)

/-- The order of two courses by course number: `a.courseNumber <= b.courseNumber`. -/
def numberLe (a b : Course) : Prop := strLe a.courseNumber b.courseNumber = true

instance numberLe_decidable : DecidableRel numberLe :=
  fun a b => inferInstanceAs (Decidable (strLe a.courseNumber b.courseNumber = true))

/-- The comma-separated fields of a line, as the specification speaks of them: the pieces
between consecutive commas, so a line with `n` commas has `n + 1` fields, some possibly
empty. This is `List.splitOn` at the comma (`splitComma_eq_splitOn`). -/
def splitComma : Str → List Str
  | [] => [[]]
  | c :: rest =>
    if c = ',' then [] :: splitComma rest
    else
      match splitComma rest with
      | [] => [[c]]
      | f :: fs => (c :: f) :: fs

/-- A list of fields without its last field when that one is empty. -/
def dropTrailingEmpty : List Str → List Str
  | [] => []
  | [f] => if f = [] then [] else [f]
  | f :: g :: fs => f :: dropTrailingEmpty (g :: fs)

/-- Every record of the tree and of the list `courses` has a non-empty course number and a
non-empty course name. -/
def Catalog.recordsNonEmpty (s : Catalog) : Prop :=
  (∀ c ∈ s.courses, c.courseNumber ≠ [] ∧ c.courseName ≠ []) ∧
  (∀ c ∈ inOrderVisit s.root, c.courseNumber ≠ [] ∧ c.courseName ≠ [])

/-- The loop `for (string prereq : prerequisites) cout << prereq << " "` of `printCourse`:
the characters it writes. -/
def printPrerequisites : List Str → Str
  | [] => []
  | prereq :: rest => prereq ++ " ".toList ++ printPrerequisites rest

/-- The procedure `printCourse(courseNumber)` on the tree `root`: the characters it writes
to `cout`. -/
def printCourse (root : Node) (courseNumber : Str) : Str :=
  match searchCourse root courseNumber with
  | Node.mk course _ _ =>
    "Course Number: ".toList ++ course.courseNumber ++ ", Course Name: ".toList ++
      course.courseName ++ ['\n'] ++
      (if !course.prerequisites.isEmpty then
        "Prerequisites: ".toList ++ printPrerequisites course.prerequisites ++ ['\n']
      else "No prerequisites\n".toList)
  | Node.null => "Course not found.\n".toList

/-- The procedure `printCourseList()` on the tree `root`: the characters it writes to
`cout`. -/
def printCourseList (root : Node) : Str :=
  match root with
  | Node.null => "No courses loaded.\n".toList
  | Node.mk c l r => inOrderTraversal (Node.mk c l r)

/-- The characters `displayMenu()` writes to `cout`. -/
def menuText : Str :=
  ("\n*******Project 2- Gonzalo Patino*******************" ++
    "\n1. Load Data Structure.\n" ++ "2. Print Course List.\n" ++ "3. Print Course.\n" ++
    "9. Exit\n" ++ "\nWhat would you like to do? ").toList

/-- The white space that formatted input skips (`isspace` in the "C" locale). -/
def isSpace (c : Char) : Bool :=
  c = ' ' || c = '\t' || c = '\n' || c = '\r' || c.toNat = 11 || c.toNat = 12

/-- The buffer without its leading white space. -/
def skipSpaces : Str → Str
  | [] => []
  | c :: rest => if isSpace c then skipSpaces rest else c :: rest

/-- Whether a character is a decimal digit. -/
def isDigit (c : Char) : Bool := decide ('0'.toNat ≤ c.toNat) && decide (c.toNat ≤ '9'.toNat)

/-- The digits at the head of the buffer are extracted and accumulated in base ten: the
value, whether a digit was seen, the rest of the buffer, and whether the end of the buffer
was reached. -/
def readDigits : Str → Nat → Bool → Nat × Bool × Str × Bool
  | [], acc, seen => (acc, seen, [], true)
  | c :: rest, acc, seen =>
    if isDigit c then readDigits rest (10 * acc + (c.toNat - '0'.toNat)) true
    else (acc, seen, c :: rest, false)

/-- The largest `int` (32 bits). -/
def intMax : Int := 2147483647

/-- The smallest `int` (32 bits). -/
def intMin : Int := -2147483648

/-- The extraction `cin >> choice` for an `int` (C++11): on a stream that is not `good()`,
or holding white space only, `failbit` is set and `choice` keeps its value; otherwise white
space is skipped, an optional sign and the decimal digits are extracted; without a digit
`choice` becomes `0` and `failbit` is set; a value outside the range of `int` is replaced by
the nearest bound and `failbit` is set. -/
def readInt (ss : IStream) (choice : Int) : IStream × Int :=
  if ss.eof || ss.fail then ({ ss with fail := true }, choice)
  else
    match skipSpaces ss.buf with
    | [] => ({ buf := [], eof := true, fail := true }, choice)
    | c :: rest =>
      let d := readDigits (if c = '-' || c = '+' then rest else c :: rest) 0 false
      let v : Int := if c = '-' then -(d.1 : Int) else (d.1 : Int)
      if !d.2.1 then ({ buf := d.2.2.1, eof := d.2.2.2, fail := true }, 0)
      else if intMax < v then ({ buf := d.2.2.1, eof := d.2.2.2, fail := true }, intMax)
      else if v < intMin then ({ buf := d.2.2.1, eof := d.2.2.2, fail := true }, intMin)
      else ({ buf := d.2.2.1, eof := d.2.2.2, fail := false }, v)

/-- The call `cin.ignore()`: one character is extracted and discarded. -/
def ignore (ss : IStream) : IStream :=
  if ss.eof || ss.fail then { ss with fail := true }
  else
    match ss.buf with
    | [] => { ss with eof := true }
    | _ :: rest => { ss with buf := rest }

/-- The characters `cout << choice` writes for an `int`. -/
def intToStr (n : Int) : Str := (toString n).toList

/-- The state of `main`: the globals and `cout`, the standard input, the variable
`choice`. -/
structure Shell where
  catalog : Catalog
  cin : IStream
  choice : Int

/-- The state in which `main` starts, for a given standard input; `choice` is not
initialised by `main`, so its first value is a parameter. -/
def Shell.start (input : String) (choice : Int) : Shell :=
  { catalog := Catalog.initial,
    cin := { buf := input.toList, eof := false, fail := false },
    choice := choice }

/-- One iteration of the `do ... while (choice != 9)` loop of `main`, `file` being what
opening and reading the course file delivers: the state after the iteration and whether the
loop goes on. -/
def menuStep (file : Option (List Str)) (s : Shell) : Shell × Bool :=
  let shown : Catalog := { s.catalog with cout := s.catalog.cout ++ menuText }
  let r := readInt s.cin s.choice
  let choice := r.2
  let next : Shell :=
    if choice = 1 then
      { catalog := loadCourses shown file, cin := r.1, choice := choice }
    else if choice = 2 then
      { catalog := { shown with cout := shown.cout ++ printCourseList shown.root },
        cin := r.1, choice := choice }
    else if choice = 3 then
      let g := getline (ignore r.1) [] '\n'
      { catalog := { shown with cout := shown.cout ++ "Enter course number: ".toList ++
                      printCourse shown.root g.2 },
        cin := g.1, choice := choice }
    else if choice = 9 then
      { catalog := { shown with cout := shown.cout ++
                      "Thank you for using the course planner!\n".toList },
        cin := r.1, choice := choice }
    else
      { catalog := { shown with cout := shown.cout ++ intToStr choice ++
                      " is not a valid option.\n".toList },
        cin := r.1, choice := choice }
  (next, decide (choice ≠ 9))

/-- The loop `do ... while (choice != 9)` of `main` run for at most `n` iterations: the
state when the loop has ended or `n` iterations are done. -/
def menuSteps (file : Option (List Str)) : Nat → Shell → Shell
  | 0, s => s
  | n + 1, s => if (menuStep file s).2 then menuSteps file n (menuStep file s).1
                else (menuStep file s).1

/-- The state the loop is caught in after the input `abc`: the extraction yields `0` and a
failed stream that still holds the whole input, the tree and the list `courses` are
empty. -/
def stuckOnAbc (s : Shell) : Prop :=
  readInt s.cin s.choice = ({ buf := "abc\n9\n".toList, eof := false, fail := true }, 0) ∧
  s.catalog.root = Node.null ∧ s.catalog.courses = []

/-- The number of nodes on the longest path from a node down to a leaf; `0` for
`nullptr`. -/
def Node.height : Node → Nat
  | Node.null => 0
  | Node.mk _ l r => max l.height r.height + 1

/-- Whether no node of the tree has a left child. -/
def Node.noLeftChild : Node → Bool
  | Node.null => true
  | Node.mk _ l r => decide (l = Node.null) && r.noLeftChild

/-- The number of nodes `searchCourse(node, courseNumber)` visits: the calls whose `node`
is not `nullptr`. -/
def searchVisits : Node → Str → Nat
  | Node.null, _ => 0
  | Node.mk c l r, courseNumber =>
    if c.courseNumber = courseNumber then 1
    else if strLt courseNumber c.courseNumber then searchVisits l courseNumber + 1
    else searchVisits r courseNumber + 1

/-- The course of the node at a position of the tree, the position being the path from the
root (`false` for left, `true` for right); `none` when there is no node there. -/
def Node.courseAt : Node → List Bool → Option Course
  | Node.null, _ => none
  | Node.mk c _ _, [] => some c
  | Node.mk _ l _, false :: path => l.courseAt path
  | Node.mk _ _ r, true :: path => r.courseAt path

/-- The position of the node `searchCourse(node, courseNumber)` returns, as the path from
`node` (`false` for left, `true` for right); `none` when it returns `nullptr`. -/
def searchPath : Node → Str → Option (List Bool)
  | Node.null, _ => none
  | Node.mk c l r, courseNumber =>
    if c.courseNumber = courseNumber then some []
    else if strLt courseNumber c.courseNumber then
      (searchPath l courseNumber).map (fun p => false :: p)
    else (searchPath r courseNumber).map (fun p => true :: p)

/-- The tree in which every node has a right child only, holding the courses in order. -/
def rightSpine : List Course → Node
  | [] => Node.null
  | c :: rest => Node.mk c Node.null (rightSpine rest)

/-- A prerequisite line as the specification words it: `Prerequisites: ` followed by the
course numbers separated by single spaces. -/
def prerequisitesLineSpec (prerequisites : List Str) : Str :=
  "Prerequisites: ".toList ++ List.intercalate " ".toList prerequisites ++ ['\n']

/-! ## The order on strings -/

theorem char_eq_of_toNat_eq {a b : Char} (h : a.toNat = b.toNat) : a = b := by
  apply Char.ext
  apply UInt32.ext
  exact h

theorem strLt_irrefl (a : Str) : strLt a a = false := by
  induction a with
  | nil => rfl
  | cons c cs ih => simp [strLt, ih]

theorem strLt_asymm : ∀ {a b : Str}, strLt a b = true → strLt b a = false
  | [], [], h => by simp [strLt] at h
  | [], _ :: _, _ => by simp [strLt]
  | _ :: _, [], h => by simp [strLt] at h
  | a :: as, b :: bs, h => by
    rw [strLt] at h
    rw [strLt]
    by_cases h1 : a.toNat < b.toNat
    · have h2 : ¬ b.toNat < a.toNat := by omega
      simp [h1, h2]
    · by_cases h2 : b.toNat < a.toNat
      · simp [h1, h2] at h
      · simp only [h1, h2, if_false] at h ⊢
        exact strLt_asymm h

theorem strLt_trans : ∀ {a b c : Str}, strLt a b = true → strLt b c = true → strLt a c = true
  | [], [], _, h, _ => by simp [strLt] at h
  | [], _ :: _, [], _, h => by simp [strLt] at h
  | [], _ :: _, _ :: _, _, _ => by simp [strLt]
  | _ :: _, [], _, h, _ => by simp [strLt] at h
  | _ :: _, _ :: _, [], _, h => by simp [strLt] at h
  | a :: as, b :: bs, c :: cs, h1, h2 => by
    rw [strLt] at h1 h2
    rw [strLt]
    by_cases hab : a.toNat < b.toNat
    · by_cases hbc : b.toNat < c.toNat
      · have : a.toNat < c.toNat := by omega
        simp [this]
      · by_cases hcb : c.toNat < b.toNat
        · simp [hbc, hcb] at h2
        · have : a.toNat < c.toNat := by omega
          simp [this]
    · by_cases hba : b.toNat < a.toNat
      · simp [hab, hba] at h1
      · simp only [hab, hba, if_false] at h1
        by_cases hbc : b.toNat < c.toNat
        · have : a.toNat < c.toNat := by omega
          simp [this]
        · by_cases hcb : c.toNat < b.toNat
          · simp [hbc, hcb] at h2
          · simp only [hbc, hcb, if_false] at h2
            have e1 : ¬ a.toNat < c.toNat := by omega
            have e2 : ¬ c.toNat < a.toNat := by omega
            simp only [e1, e2, if_false]
            exact strLt_trans h1 h2

theorem strLt_total : ∀ {a b : Str}, strLt a b = false → strLt b a = false → a = b
  | [], [], _, _ => rfl
  | [], _ :: _, h, _ => by simp [strLt] at h
  | _ :: _, [], _, h => by simp [strLt] at h
  | a :: as, b :: bs, h1, h2 => by
    rw [strLt] at h1 h2
    by_cases hab : a.toNat < b.toNat
    · simp [hab] at h1
    · by_cases hba : b.toNat < a.toNat
      · simp [hba] at h2
      · simp only [hab, hba, if_false] at h1 h2
        have e : a = b := char_eq_of_toNat_eq (by omega)
        rw [e, strLt_total h1 h2]

/-- The relation `a <= b` is `a < b` or `a == b`. -/
theorem strLe_iff (a b : Str) : strLe a b = true ↔ strLt a b = true ∨ a = b := by
  unfold strLe
  constructor
  · intro h
    have hba : strLt b a = false := by simpa using h
    cases hab : strLt a b with
    | true => exact Or.inl rfl
    | false => exact Or.inr (strLt_total hab hba)
  · rintro (h | h)
    · simp [strLt_asymm h]
    · simp [h, strLt_irrefl]

theorem strLe_trans {a b c : Str} (h1 : strLe a b = true) (h2 : strLe b c = true) :
    strLe a c = true := by
  rcases (strLe_iff a b).1 h1 with h | h
  · rcases (strLe_iff b c).1 h2 with h' | h'
    · exact (strLe_iff a c).2 (Or.inl (strLt_trans h h'))
    · subst h'
      exact h1
  · subst h
    exact h2

theorem strLt_of_lt_of_le {a b c : Str} (h1 : strLt a b = true) (h2 : strLe b c = true) :
    strLt a c = true := by
  rcases (strLe_iff b c).1 h2 with h | h
  · exact strLt_trans h1 h
  · subst h
    exact h1

theorem strLt_of_le_of_lt {a b c : Str} (h1 : strLe a b = true) (h2 : strLt b c = true) :
    strLt a c = true := by
  rcases (strLe_iff a b).1 h1 with h | h
  · exact strLt_trans h h2
  · subst h
    exact h2

theorem weakBST_mk (c : Course) (l r : Node) :
    weakBST (Node.mk c l r) = true ↔
      (∀ x ∈ inOrderVisit l, strLt x.courseNumber c.courseNumber = true) ∧
      (∀ x ∈ inOrderVisit r, strLe c.courseNumber x.courseNumber = true) ∧
      weakBST l = true ∧ weakBST r = true := by
  simp [weakBST, List.all_eq_true, and_assoc]

theorem strictBST_mk (c : Course) (l r : Node) :
    strictBST (Node.mk c l r) = true ↔
      (∀ x ∈ inOrderVisit l, strLt x.courseNumber c.courseNumber = true) ∧
      (∀ x ∈ inOrderVisit r, strLt c.courseNumber x.courseNumber = true) ∧
      strictBST l = true ∧ strictBST r = true := by
  simp [strictBST, List.all_eq_true, and_assoc]

theorem inOrderVisit_add_perm (t : Node) (r : Course) :
    (inOrderVisit (addCourseToTree t r)).Perm (r :: inOrderVisit t) := by
  induction t with
  | null => simp [addCourseToTree, inOrderVisit]
  | mk c l rt ihl ihr =>
    rw [addCourseToTree]
    split
    · simp only [inOrderVisit]
      exact (ihl.append_right _).trans (by simp)
    · simp only [inOrderVisit]
      have h1 : (c :: inOrderVisit (addCourseToTree rt r)).Perm (r :: c :: inOrderVisit rt) :=
        (ihr.cons c).trans (List.Perm.swap r c _)
      exact (h1.append_left (inOrderVisit l)).trans (List.perm_middle)

theorem mem_inOrderVisit_add {t : Node} {r x : Course} :
    x ∈ inOrderVisit (addCourseToTree t r) ↔ x = r ∨ x ∈ inOrderVisit t := by
  rw [(inOrderVisit_add_perm t r).mem_iff, List.mem_cons]

theorem weakBST_add (t : Node) (r : Course) (h : weakBST t = true) :
    weakBST (addCourseToTree t r) = true := by
  induction t with
  | null => simp [addCourseToTree, weakBST, inOrderVisit]
  | mk c l rt ihl ihr =>
    obtain ⟨hl, hr, wl, wr⟩ := (weakBST_mk c l rt).1 h
    rw [addCourseToTree]
    split
    · rename_i hlt
      refine (weakBST_mk _ _ _).2 ⟨?_, hr, ihl wl, wr⟩
      intro x hx
      rcases mem_inOrderVisit_add.1 hx with e | hx
      · rw [e]; exact hlt
      · exact hl x hx
    · rename_i hlt
      refine (weakBST_mk _ _ _).2 ⟨hl, ?_, wl, ihr wr⟩
      intro x hx
      rcases mem_inOrderVisit_add.1 hx with e | hx
      · rw [e]; simpa [strLe] using hlt
      · exact hr x hx

theorem addCourses_append (t : Node) (as bs : List Course) :
    addCourses t (as ++ bs) = addCourses (addCourses t as) bs := by
  induction as generalizing t with
  | nil => rfl
  | cons a as ih => simp [addCourses, ih]

theorem weakBST_addCourses (t : Node) (rs : List Course) (h : weakBST t = true) :
    weakBST (addCourses t rs) = true := by
  induction rs generalizing t with
  | nil => exact h
  | cons r rs ih => exact ih _ (weakBST_add t r h)

theorem inOrderVisit_addCourses_perm (t : Node) (rs : List Course) :
    (inOrderVisit (addCourses t rs)).Perm (inOrderVisit t ++ rs) := by
  induction rs generalizing t with
  | nil => simp [addCourses]
  | cons r rs ih =>
    rw [addCourses]
    exact (ih _).trans (((inOrderVisit_add_perm t r).append_right rs).trans
      (List.perm_middle.symm))

theorem sorted_of_weakBST (t : Node) (h : weakBST t = true) :
    (inOrderVisit t).Pairwise (fun a b => strLe a.courseNumber b.courseNumber = true) := by
  induction t with
  | null => simp [inOrderVisit]
  | mk c l r ihl ihr =>
    obtain ⟨hl, hr, wl, wr⟩ := (weakBST_mk c l r).1 h
    simp only [inOrderVisit]
    rw [List.pairwise_append]
    refine ⟨ihl wl, List.pairwise_cons.2 ⟨hr, ihr wr⟩, ?_⟩
    intro x hx y hy
    have hxc := hl x hx
    rcases List.mem_cons.1 hy with e | hy
    · rw [e]; exact (strLe_iff _ _).2 (Or.inl hxc)
    · exact (strLe_iff _ _).2 (Or.inl (strLt_of_lt_of_le hxc (hr y hy)))

theorem filter_inOrderVisit_add (t : Node) (r : Course) (k : Str) (h : weakBST t = true) :
    (inOrderVisit (addCourseToTree t r)).filter (hasNumber k) =
      (inOrderVisit t).filter (hasNumber k) ++ [r].filter (hasNumber k) := by
  induction t with
  | null => simp [addCourseToTree, inOrderVisit]
  | mk c l rt ihl ihr =>
    obtain ⟨hl, hr, wl, wr⟩ := (weakBST_mk c l rt).1 h
    rw [addCourseToTree]
    split
    · rename_i hlt
      simp only [inOrderVisit, List.filter_append, ihl wl, List.append_assoc]
      by_cases hk : r.courseNumber = k
      · have h0 : (c :: inOrderVisit rt).filter (hasNumber k) = [] := by
          rw [List.filter_eq_nil_iff]
          intro x hx hxk
          have hxk : x.courseNumber = k := by simpa [hasNumber] using hxk
          have hcx : strLe c.courseNumber x.courseNumber = true := by
            rcases List.mem_cons.1 hx with e | hx
            · rw [e]; simp [strLe, strLt_irrefl]
            · exact hr x hx
          rw [hxk, ← hk] at hcx
          have := strLt_of_lt_of_le hlt hcx
          rw [strLt_irrefl] at this
          exact Bool.noConfusion this
        rw [h0]
        simp
      · have h0 : [r].filter (hasNumber k) = [] := by simp [hasNumber, hk]
        rw [h0]
        simp
    · simp only [inOrderVisit, List.filter_append, List.filter_cons, ihr wr]
      split <;> simp

theorem filter_inOrderVisit_addCourses (t : Node) (rs : List Course) (k : Str)
    (h : weakBST t = true) :
    (inOrderVisit (addCourses t rs)).filter (hasNumber k) =
      (inOrderVisit t).filter (hasNumber k) ++ rs.filter (hasNumber k) := by
  induction rs generalizing t with
  | nil => simp [addCourses]
  | cons r rs ih =>
    rw [addCourses, ih _ (weakBST_add t r h), filter_inOrderVisit_add t r k h]
    simp [List.filter_cons]
    split <;> simp

theorem inOrderTraversal_eq (t : Node) :
    inOrderTraversal t = ((inOrderVisit t).map courseLine).flatten := by
  induction t with
  | null => rfl
  | mk c l r ihl ihr => simp [inOrderTraversal, inOrderVisit, ihl, ihr]

/-! ## Lookup after insertion -/

theorem searchCourse_number {t : Node} {k : Str} {c : Course} {l r : Node}
    (h : searchCourse t k = Node.mk c l r) : c.courseNumber = k := by
  induction t with
  | null => simp [searchCourse] at h
  | mk c0 l0 r0 ihl ihr =>
    rw [searchCourse] at h
    split at h
    · rename_i he
      cases h
      exact he
    · split at h
      · exact ihl h
      · exact ihr h

theorem course?_eq_some {t : Node} {c : Course} (h : t.course? = some c) :
    ∃ l r, t = Node.mk c l r := by
  cases t with
  | null => simp [Node.course?] at h
  | mk c0 l r =>
    simp only [Node.course?, Option.some.injEq] at h
    exact ⟨l, r, by rw [h]⟩

theorem searchCourse_add (t : Node) (r : Course) (k : Str) :
    (searchCourse (addCourseToTree t r) k).course? =
      ((searchCourse t k).course?).or (if r.courseNumber = k then some r else none) := by
  induction t with
  | null =>
    by_cases hk : r.courseNumber = k <;>
      simp [addCourseToTree, searchCourse, Node.course?, hk]
  | mk c l rt ihl ihr =>
    rw [addCourseToTree]
    by_cases hc : c.courseNumber = k
    · split <;> simp [searchCourse, hc, Node.course?]
    · by_cases hkc : strLt k c.courseNumber = true
      · by_cases hrc : strLt r.courseNumber c.courseNumber = true
        · simp [searchCourse, hc, hkc, hrc, ihl]
        · have hrk : r.courseNumber ≠ k := fun e => hrc (e ▸ hkc)
          simp [searchCourse, hc, hkc, hrc, hrk]
      · by_cases hrc : strLt r.courseNumber c.courseNumber = true
        · have hrk : r.courseNumber ≠ k := fun e => hkc (e ▸ hrc)
          simp [searchCourse, hc, hkc, hrc, hrk]
        · simp [searchCourse, hc, hkc, hrc, ihr]

theorem searchCourse_addCourses (t : Node) (rs : List Course) (k : Str) :
    (searchCourse (addCourses t rs) k).course? =
      ((searchCourse t k).course?).or (rs.find? (hasNumber k)) := by
  induction rs generalizing t with
  | nil => simp [addCourses]
  | cons r rs ih =>
    rw [addCourses, ih, searchCourse_add, List.find?_cons]
    by_cases hk : r.courseNumber = k
    · cases (searchCourse t k).course? <;> simp [hasNumber, hk]
    · cases (searchCourse t k).course? <;> simp [hasNumber, hk]

theorem find?_first (pre post : List Course) (c : Course)
    (hpre : ∀ x ∈ pre, x.courseNumber ≠ c.courseNumber) :
    (pre ++ c :: post).find? (hasNumber c.courseNumber) = some c := by
  induction pre with
  | nil => simp [hasNumber]
  | cons a pre ih =>
    have ha : a.courseNumber ≠ c.courseNumber := hpre a (List.mem_cons_self _ _)
    simp only [List.cons_append, List.find?_cons, hasNumber, ha, decide_False]
    exact ih (fun x hx => hpre x (List.mem_cons_of_mem _ hx))

theorem exists_first (rs : List Course) (k : Str) (h : ∃ x ∈ rs, x.courseNumber = k) :
    ∃ pre c post, rs = pre ++ c :: post ∧ c.courseNumber = k ∧
      ∀ x ∈ pre, x.courseNumber ≠ k := by
  induction rs with
  | nil => simp at h
  | cons a rs ih =>
    by_cases ha : a.courseNumber = k
    · exact ⟨[], a, rs, rfl, ha, by simp⟩
    · obtain ⟨x, hx, hxk⟩ := h
      have hx' : x ∈ rs := by
        rcases List.mem_cons.1 hx with e | hx
        · exact absurd (e ▸ hxk) ha
        · exact hx
      obtain ⟨pre, c, post, e, hc, hpre⟩ := ih ⟨x, hx', hxk⟩
      refine ⟨a :: pre, c, post, by rw [e]; rfl, hc, ?_⟩
      intro y hy
      rcases List.mem_cons.1 hy with e | hy
      · rw [e]; exact ha
      · exact hpre y hy

theorem searchCourse_first (pre post : List Course) (c : Course)
    (hpre : ∀ x ∈ pre, x.courseNumber ≠ c.courseNumber) :
    ∃ l r, searchCourse (addCourses Node.null (pre ++ c :: post)) c.courseNumber =
      Node.mk c l r := by
  apply course?_eq_some
  rw [searchCourse_addCourses, find?_first pre post c hpre]
  simp [searchCourse, Node.course?]

/-! ## Sorting by course number -/

theorem numberLe_trans : IsTrans Course numberLe :=
  ⟨fun _ _ _ h1 h2 => strLe_trans h1 h2⟩

theorem number_eq_of_le_of_le {a b : Course} (h1 : numberLe a b) (h2 : numberLe b a) :
    a.courseNumber = b.courseNumber := by
  unfold numberLe strLe at h1 h2
  exact strLt_total (by simpa using h2) (by simpa using h1)

theorem head_le_of_mem {a x : Course} {l : List Course} (hs : (a :: l).Pairwise numberLe)
    (hx : x ∈ a :: l) : numberLe a x := by
  rcases List.mem_cons.1 hx with e | hx
  · rw [e]; simp [numberLe, strLe, strLt_irrefl]
  · exact (List.pairwise_cons.1 hs).1 x hx

theorem mem_of_filter_eq {l1 l2 : List Course} {x : Course}
    (hf : ∀ k, l1.filter (hasNumber k) = l2.filter (hasNumber k)) (hx : x ∈ l1) : x ∈ l2 := by
  have h1 : x ∈ l1.filter (hasNumber x.courseNumber) :=
    List.mem_filter.2 ⟨hx, by simp [hasNumber]⟩
  rw [hf] at h1
  exact (List.mem_filter.1 h1).1

/-- Two lists sorted by course number in which the courses of every number appear in the
same order are the same list. -/
theorem eq_of_sorted_of_filter_eq : ∀ (l1 l2 : List Course),
    l1.Pairwise numberLe → l2.Pairwise numberLe →
    (∀ k, l1.filter (hasNumber k) = l2.filter (hasNumber k)) → l1 = l2
  | [], [], _, _, _ => rfl
  | [], b :: l2, _, _, hf => by
    have := mem_of_filter_eq (fun k => (hf k).symm) (List.mem_cons_self b l2)
    simp at this
  | a :: l1, [], _, _, hf => by
    have := mem_of_filter_eq hf (List.mem_cons_self a l1)
    simp at this
  | a :: l1, b :: l2, h1, h2, hf => by
    have hab : numberLe a b :=
      head_le_of_mem h1 (mem_of_filter_eq (fun k => (hf k).symm) (List.mem_cons_self b l2))
    have hba : numberLe b a :=
      head_le_of_mem h2 (mem_of_filter_eq hf (List.mem_cons_self a l1))
    have hn : a.courseNumber = b.courseNumber := number_eq_of_le_of_le hab hba
    have h0 := hf a.courseNumber
    have ha : hasNumber a.courseNumber a = true := by simp [hasNumber]
    have hb : hasNumber a.courseNumber b = true := by simp [hasNumber, hn]
    rw [List.filter_cons_of_pos ha, List.filter_cons_of_pos hb] at h0
    have e : a = b := (List.cons.inj h0).1
    subst e
    have ht : l1 = l2 := by
      apply eq_of_sorted_of_filter_eq l1 l2 (List.pairwise_cons.1 h1).2
        (List.pairwise_cons.1 h2).2
      intro k
      have hk := hf k
      by_cases hak : hasNumber k a = true
      · rw [List.filter_cons_of_pos hak, List.filter_cons_of_pos hak] at hk
        exact (List.cons.inj hk).2
      · rw [List.filter_cons_of_neg hak, List.filter_cons_of_neg hak] at hk
        exact hk
    rw [ht]

theorem strictBST_of_weakBST (t : Node) (h : weakBST t = true)
    (hn : ((inOrderVisit t).map Course.courseNumber).Nodup) : strictBST t = true := by
  induction t with
  | null => rfl
  | mk c l r ihl ihr =>
    obtain ⟨hl, hr, wl, wr⟩ := (weakBST_mk c l r).1 h
    simp only [inOrderVisit, List.map_append, List.map_cons] at hn
    rw [List.nodup_append] at hn
    obtain ⟨nl, ncr, _⟩ := hn
    rw [List.nodup_cons] at ncr
    refine (strictBST_mk c l r).2 ⟨hl, ?_, ihl wl nl, ihr wr ncr.2⟩
    intro x hx
    rcases (strLe_iff _ _).1 (hr x hx) with hlt | he
    · exact hlt
    · exact absurd (he ▸ List.mem_map_of_mem Course.courseNumber hx) ncr.1

theorem course?_eq_none {t : Node} (h : t.course? = none) : t = Node.null := by
  cases t with
  | null => rfl
  | mk c l r => simp [Node.course?] at h

theorem filter_eq_nil_of_nodup {a : Course} {l : List Course}
    (hd : ((a :: l).map Course.courseNumber).Nodup) :
    l.filter (hasNumber a.courseNumber) = [] := by
  rw [List.filter_eq_nil_iff]
  intro x hx hxa
  have hxa : x.courseNumber = a.courseNumber := by simpa [hasNumber] using hxa
  rw [List.map_cons, List.nodup_cons] at hd
  exact hd.1 (hxa ▸ List.mem_map_of_mem Course.courseNumber hx)

theorem filter_length_le_one (k : Str) (l : List Course)
    (hd : (l.map Course.courseNumber).Nodup) : (l.filter (hasNumber k)).length ≤ 1 := by
  induction l with
  | nil => simp
  | cons a l ih =>
    by_cases ha : hasNumber k a = true
    · have hk : a.courseNumber = k := by simpa [hasNumber] using ha
      rw [List.filter_cons_of_pos ha, ← hk, filter_eq_nil_of_nodup hd]
      simp
    · rw [List.filter_cons_of_neg ha]
      exact ih (List.nodup_cons.1 hd).2

theorem filter_eq_of_perm (k : Str) {l1 l2 : List Course}
    (hd : (l1.map Course.courseNumber).Nodup) (hp : l1.Perm l2) :
    l1.filter (hasNumber k) = l2.filter (hasNumber k) := by
  have hlen := filter_length_le_one k l1 hd
  have hpf : (l1.filter (hasNumber k)).Perm (l2.filter (hasNumber k)) := hp.filter _
  generalize l1.filter (hasNumber k) = f1 at hlen hpf
  match f1, hpf, hlen with
  | [], hpf, _ => exact (List.nil_perm.1 hpf).symm
  | [a], hpf, _ => exact (List.perm_singleton.1 hpf.symm).symm
  | _ :: _ :: _, _, hlen => simp at hlen

/-! ## The binary search tree: claims -/

/-- C1: for every sequence of records inserted one by one into the empty tree, the in-order
traversal visits the records in ascending order of course number (every visited number is
`<=` every later one, in particular the next one) and prints their lines in that order;
inserting B, A, C lists A, B, C. -/
theorem inOrderTraversal_ascending (rs : List Course) :
    (inOrderVisit (addCourses Node.null rs)).Pairwise
        (fun a b => strLe a.courseNumber b.courseNumber = true) ∧
      (inOrderVisit (addCourses Node.null rs)).Chain'
        (fun a b => strLe a.courseNumber b.courseNumber = true) ∧
      inOrderTraversal (addCourses Node.null rs) =
        ((inOrderVisit (addCourses Node.null rs)).map courseLine).flatten ∧
      (inOrderVisit (addCourses Node.null
          [course0 "B" "b", course0 "A" "a", course0 "C" "c"])).map Course.courseNumber =
        ["A".toList, "B".toList, "C".toList] := by
  have h := sorted_of_weakBST _ (weakBST_addCourses Node.null rs rfl)
  exact ⟨h, List.Pairwise.chain' h, inOrderTraversal_eq _, by decide⟩

/-- C2: when the records `rs` are inserted in order into the empty tree and `k` is the course
number of one of them, `searchCourse` returns a node holding the first record of `rs` whose
course number is `k`, however many later records share that number. -/
theorem searchCourse_first_inserted (rs : List Course) (k : Str)
    (hk : ∃ x ∈ rs, x.courseNumber = k) :
    ∃ pre c post, rs = pre ++ c :: post ∧ c.courseNumber = k ∧
      (∀ x ∈ pre, x.courseNumber ≠ k) ∧
      ∃ l r, searchCourse (addCourses Node.null rs) k = Node.mk c l r := by
  obtain ⟨pre, c, post, e, hc, hpre⟩ := exists_first rs k hk
  subst hc
  exact ⟨pre, c, post, e, rfl, hpre, e ▸ searchCourse_first pre post c hpre⟩

/-- C2 at a concrete input: after inserting (X, name1) and then (X, name2), the lookup of X
returns the record of the first insertion. -/
theorem searchCourse_first_inserted_witness :
    (∃ x ∈ [course0 "X" "name1", course0 "X" "name2"], x.courseNumber = "X".toList) ∧
    ∃ pre c post, [course0 "X" "name1", course0 "X" "name2"] = pre ++ c :: post ∧
      c.courseNumber = "X".toList ∧ (∀ x ∈ pre, x.courseNumber ≠ "X".toList) ∧
      ∃ l r, searchCourse (addCourses Node.null [course0 "X" "name1", course0 "X" "name2"])
        "X".toList = Node.mk c l r :=
  ⟨⟨course0 "X" "name1", by simp, rfl⟩,
    searchCourse_first_inserted [course0 "X" "name1", course0 "X" "name2"] "X".toList
      ⟨course0 "X" "name1", by simp, rfl⟩⟩

/-- C3 fails as stated: after inserting (X, name1) and then (X, name2), the lookup of the
course number of the second record returns the first record, whose name is another. -/
theorem lookup_after_insert_counterexample :
    course0 "X" "name2" ∈ [course0 "X" "name1", course0 "X" "name2"] ∧
    (searchCourse (addCourses Node.null [course0 "X" "name1", course0 "X" "name2"])
      (course0 "X" "name2").courseNumber).course? = some (course0 "X" "name1") ∧
    (course0 "X" "name1").courseName ≠ (course0 "X" "name2").courseName := by
  decide

/-- C3, amended: for every record `r` of the inserted sequence the lookup of `r`'s course
number returns a node, never 'not found', whose course number is `r`'s; the node holds `r`
itself, name and prerequisites as constructed, whenever no record before `r` in the sequence
has the same course number. -/
theorem lookup_after_insert (rs : List Course) (r : Course) (hr : r ∈ rs) :
    (∃ c l rt, searchCourse (addCourses Node.null rs) r.courseNumber = Node.mk c l rt ∧
      c.courseNumber = r.courseNumber) ∧
    ∀ pre post, rs = pre ++ r :: post → (∀ x ∈ pre, x.courseNumber ≠ r.courseNumber) →
      ∃ l rt, searchCourse (addCourses Node.null rs) r.courseNumber = Node.mk r l rt := by
  constructor
  · obtain ⟨pre, c, post, e, hc, hpre⟩ := exists_first rs r.courseNumber ⟨r, hr, rfl⟩
    obtain ⟨l, rt, h⟩ := searchCourse_first pre post c (hc ▸ hpre)
    exact ⟨c, l, rt, by rw [e, ← hc]; exact h, hc⟩
  · intro pre post e hpre
    rw [e]
    exact searchCourse_first pre post r hpre

/-- C3, amended, at a concrete input: B, A, C inserted, the lookup of A returns A's record. -/
theorem lookup_after_insert_witness :
    course0 "A" "a" ∈ [course0 "B" "b", course0 "A" "a", course0 "C" "c"] ∧
    ((∃ c l rt, searchCourse (addCourses Node.null
        [course0 "B" "b", course0 "A" "a", course0 "C" "c"]) (course0 "A" "a").courseNumber =
          Node.mk c l rt ∧ c.courseNumber = (course0 "A" "a").courseNumber) ∧
      ∀ pre post, [course0 "B" "b", course0 "A" "a", course0 "C" "c"] =
          pre ++ course0 "A" "a" :: post →
        (∀ x ∈ pre, x.courseNumber ≠ (course0 "A" "a").courseNumber) →
        ∃ l rt, searchCourse (addCourses Node.null
          [course0 "B" "b", course0 "A" "a", course0 "C" "c"]) (course0 "A" "a").courseNumber =
            Node.mk (course0 "A" "a") l rt) :=
  ⟨by decide, lookup_after_insert _ _ (by decide)⟩

/-- C4: in a tree built by inserting `rs` into the empty tree, the lookup of a course number
that no record of `rs` has returns `nullptr`; on any tree, a node returned by `searchCourse`
has the course number asked for; and the result of `searchCourse` is always `nullptr` or a
node. -/
theorem searchCourse_not_found (rs : List Course) (k : Str)
    (hk : ∀ x ∈ rs, x.courseNumber ≠ k) :
    searchCourse (addCourses Node.null rs) k = Node.null ∧
    (∀ (t : Node) (k' : Str) (c : Course) (l r : Node),
      searchCourse t k' = Node.mk c l r → c.courseNumber = k') ∧
    (∀ (t : Node) (k' : Str),
      searchCourse t k' = Node.null ∨ ∃ c l r, searchCourse t k' = Node.mk c l r) := by
  refine ⟨?_, fun t k' c l r h => searchCourse_number h, ?_⟩
  · apply course?_eq_none
    rw [searchCourse_addCourses]
    have : rs.find? (hasNumber k) = none := by
      rw [List.find?_eq_none]
      intro x hx
      simpa [hasNumber] using hk x hx
    rw [this]
    simp [searchCourse, Node.course?]
  · intro t k'
    cases h : searchCourse t k' with
    | null => exact Or.inl rfl
    | mk c l r => exact Or.inr ⟨c, l, r, rfl⟩

/-- C4 at a concrete input: B, A, C inserted, the lookup of D returns `nullptr`. -/
theorem searchCourse_not_found_witness :
    (∀ x ∈ [course0 "B" "b", course0 "A" "a", course0 "C" "c"],
      x.courseNumber ≠ "D".toList) ∧
    (searchCourse (addCourses Node.null [course0 "B" "b", course0 "A" "a", course0 "C" "c"])
        "D".toList = Node.null ∧
      (∀ (t : Node) (k' : Str) (c : Course) (l r : Node),
        searchCourse t k' = Node.mk c l r → c.courseNumber = k') ∧
      (∀ (t : Node) (k' : Str),
        searchCourse t k' = Node.null ∨ ∃ c l r, searchCourse t k' = Node.mk c l r)) :=
  ⟨by decide, searchCourse_not_found _ _ (by decide)⟩

/-- C6: two lists of records that are permutations of each other, the course numbers being
pairwise distinct, give the same in-order visit and the same printed listing when inserted
into the empty tree. -/
theorem inOrderTraversal_order_independent (rs rs' : List Course)
    (hd : (rs.map Course.courseNumber).Nodup) (hp : rs.Perm rs') :
    inOrderVisit (addCourses Node.null rs) = inOrderVisit (addCourses Node.null rs') ∧
    inOrderTraversal (addCourses Node.null rs) = inOrderTraversal (addCourses Node.null rs') := by
  have h : inOrderVisit (addCourses Node.null rs) = inOrderVisit (addCourses Node.null rs') := by
    apply eq_of_sorted_of_filter_eq
    · exact sorted_of_weakBST _ (weakBST_addCourses Node.null rs rfl)
    · exact sorted_of_weakBST _ (weakBST_addCourses Node.null rs' rfl)
    · intro k
      rw [filter_inOrderVisit_addCourses Node.null rs k rfl,
        filter_inOrderVisit_addCourses Node.null rs' k rfl, filter_eq_of_perm k hd hp]
  exact ⟨h, by rw [inOrderTraversal_eq, inOrderTraversal_eq, h]⟩

/-- C6 at a concrete input: B, A, C and its reordering C, B, A give the same listing. -/
theorem inOrderTraversal_order_independent_witness :
    ([course0 "B" "b", course0 "A" "a", course0 "C" "c"].map Course.courseNumber).Nodup ∧
    [course0 "B" "b", course0 "A" "a", course0 "C" "c"].Perm
      [course0 "C" "c", course0 "B" "b", course0 "A" "a"] ∧
    inOrderVisit (addCourses Node.null [course0 "B" "b", course0 "A" "a", course0 "C" "c"]) =
      inOrderVisit (addCourses Node.null [course0 "C" "c", course0 "B" "b", course0 "A" "a"]) ∧
    inOrderTraversal (addCourses Node.null [course0 "B" "b", course0 "A" "a", course0 "C" "c"]) =
      inOrderTraversal (addCourses Node.null
        [course0 "C" "c", course0 "B" "b", course0 "A" "a"]) :=
  ⟨by decide, by decide, inOrderTraversal_order_independent _ _ (by decide) (by decide)⟩

/-- C7 fails as stated: after inserting two records with the course number X, the root's
right subtree holds a course number that is not greater than the root's. -/
theorem strict_ordering_counterexample :
    strictBST (addCourses Node.null [course0 "X" "name1", course0 "X" "name2"]) = false ∧
    addCourses Node.null [course0 "X" "name1", course0 "X" "name2"] =
      Node.mk (course0 "X" "name1") Node.null
        (Node.mk (course0 "X" "name2") Node.null Node.null) := by
  decide

/-- C7, amended: in every tree reached from the empty tree by insertions, for every node the
course numbers of its left subtree are smaller than the node's and those of its right subtree
are greater than or equal to the node's; they are greater when the inserted course numbers
are pairwise distinct. -/
theorem reachable_tree_ordering (rs : List Course) :
    weakBST (addCourses Node.null rs) = true ∧
    ((rs.map Course.courseNumber).Nodup → strictBST (addCourses Node.null rs) = true) := by
  refine ⟨weakBST_addCourses Node.null rs rfl, fun hd => ?_⟩
  apply strictBST_of_weakBST _ (weakBST_addCourses Node.null rs rfl)
  have hp : (inOrderVisit (addCourses Node.null rs)).Perm rs := by
    simpa [inOrderVisit] using inOrderVisit_addCourses_perm Node.null rs
  exact (hp.map Course.courseNumber).nodup_iff.2 hd

/-- C7, amended, at a concrete input: B, A, C inserted. -/
theorem reachable_tree_ordering_witness :
    ([course0 "B" "b", course0 "A" "a", course0 "C" "c"].map Course.courseNumber).Nodup ∧
    strictBST (addCourses Node.null [course0 "B" "b", course0 "A" "a", course0 "C" "c"]) =
      true :=
  ⟨by decide, (reachable_tree_ordering _).2 (by decide)⟩

/-! ## The loader -/

theorem splitComma_ne_nil (s : Str) : splitComma s ≠ [] := by
  cases s with
  | nil => simp [splitComma]
  | cons c rest =>
    rw [splitComma]
    split
    · simp
    · split <;> simp

theorem splitComma_eq_splitOn (s : Str) : splitComma s = List.splitOn ',' s := by
  unfold List.splitOn
  induction s with
  | nil => simp [splitComma]
  | cons c rest ih =>
    rw [splitComma, List.splitOnP_cons, ← ih]
    by_cases hc : c = ','
    · simp [hc]
    · simp only [hc, if_false, beq_iff_eq]
      cases h : splitComma rest with
      | nil => exact absurd h (splitComma_ne_nil rest)
      | cons f fs => simp

theorem getlineScan_single (s : Str) (f acc : Str) (ext : Bool) (h : splitComma s = [f]) :
    getlineScan ',' s acc ext =
      ({ buf := [], eof := true, fail := !(ext || !f.isEmpty) }, acc ++ f) ∧ f = s := by
  induction s generalizing f acc ext with
  | nil =>
    simp only [splitComma, List.cons.injEq, and_true] at h
    subst h
    simp [getlineScan]
  | cons c rest ih =>
    rw [splitComma] at h
    by_cases hc : c = ','
    · simp only [hc, if_true, List.cons.injEq] at h
      exact absurd h.2 (splitComma_ne_nil rest)
    · simp only [hc, if_false] at h
      cases h' : splitComma rest with
      | nil => exact absurd h' (splitComma_ne_nil rest)
      | cons f' fs =>
        rw [h'] at h
        simp only [List.cons.injEq] at h
        obtain ⟨hf, hfs⟩ := h
        subst hfs
        subst hf
        obtain ⟨h1, h2⟩ := ih f' (acc ++ [c]) true h'
        rw [getlineScan]
        simp only [hc, if_false, h1]
        simp [h2]

theorem getlineScan_more (s : Str) (f g : Str) (fs : List Str) (acc : Str) (ext : Bool)
    (h : splitComma s = f :: g :: fs) :
    ∃ rest, getlineScan ',' s acc ext = ({ buf := rest, eof := false, fail := false }, acc ++ f) ∧
      splitComma rest = g :: fs ∧ rest.length < s.length := by
  induction s generalizing f acc ext with
  | nil => simp [splitComma] at h
  | cons c rest ih =>
    rw [splitComma] at h
    by_cases hc : c = ','
    · simp only [hc, if_true, List.cons.injEq] at h
      refine ⟨rest, ?_, h.2, by simp⟩
      rw [getlineScan]
      simp [hc, h.1.symm]
    · simp only [hc, if_false] at h
      cases h' : splitComma rest with
      | nil => exact absurd h' (splitComma_ne_nil rest)
      | cons f' fs' =>
        rw [h'] at h
        simp only [List.cons.injEq] at h
        obtain ⟨hf, hfs⟩ := h
        subst hfs
        subst hf
        obtain ⟨rest', h1, h2, h3⟩ := ih f' (acc ++ [c]) true h'
        refine ⟨rest', ?_, h2, by simp; omega⟩
        rw [getlineScan]
        simp only [hc, if_false, h1]
        simp

theorem readPrerequisites_not_good (fuel : Nat) (ss : IStream) (p : Str) (acc : List Str)
    (h : (ss.eof || ss.fail) = true) : readPrerequisites fuel ss p acc = acc := by
  cases fuel with
  | zero => rfl
  | succ n => simp [readPrerequisites, getline, h]

theorem readPrerequisites_good (fuel : Nat) (s p : Str) (acc : List Str)
    (hfuel : s.length + 1 ≤ fuel) :
    readPrerequisites fuel { buf := s, eof := false, fail := false } p acc =
      acc ++ dropTrailingEmpty (splitComma s) := by
  induction fuel generalizing s p acc with
  | zero => omega
  | succ n ih =>
    rw [readPrerequisites]
    simp only [getline, Bool.or_self, Bool.false_eq_true, if_false]
    cases h : splitComma s with
    | nil => exact absurd h (splitComma_ne_nil s)
    | cons f fs =>
      cases fs with
      | nil =>
        obtain ⟨h1, h2⟩ := getlineScan_single s f [] false h
        rw [h1]
        by_cases hf : f = []
        · simp [hf, dropTrailingEmpty]
        · have hlen : 1 ≤ n := by
            have : s ≠ [] := h2 ▸ hf
            have := List.length_pos.2 this
            omega
          simp only [Bool.false_or, Bool.not_not, List.isEmpty_eq_true, hf, decide_False,
            Bool.false_eq_true, if_false, List.nil_append, dropTrailingEmpty]
          exact readPrerequisites_not_good n _ _ _ rfl
      | cons g gs =>
        obtain ⟨rest, h1, h2, h3⟩ := getlineScan_more s f g gs [] false h
        rw [h1]
        simp only [Bool.false_eq_true, if_false, List.nil_append]
        rw [ih rest f (acc ++ [f]) (by omega), h2]
        simp [dropTrailingEmpty]

/-- What `parseLineWith` returns, by the comma-separated fields of the line. -/
theorem parseLineWith_eq (fuel : Nat) (line : Str) (hfuel : line.length + 1 ≤ fuel) :
    parseLineWith fuel line =
      match splitComma line with
      | f1 :: f2 :: rest =>
        if f1 = [] ∨ f2 = [] then none
        else some { courseNumber := f1, courseName := f2,
                    prerequisites := dropTrailingEmpty rest }
      | _ => none := by
  unfold parseLineWith
  simp only [getline, Bool.or_self, Bool.false_eq_true, if_false]
  cases h : splitComma line with
  | nil => exact absurd h (splitComma_ne_nil line)
  | cons f1 fs =>
    cases fs with
    | nil =>
      obtain ⟨h1, _⟩ := getlineScan_single line f1 [] false h
      rw [h1]
      simp
    | cons f2 rest =>
      obtain ⟨rest1, h1, h2, h3⟩ := getlineScan_more line f1 f2 rest [] false h
      rw [h1]
      simp only [Bool.or_self, Bool.false_eq_true, if_false, List.nil_append]
      cases rest with
      | nil =>
        obtain ⟨h4, _⟩ := getlineScan_single rest1 f2 [] false h2
        rw [h4]
        simp only [List.nil_append]
        rw [readPrerequisites_not_good _ _ _ _ (by simp)]
        by_cases hf1 : f1 = [] <;> by_cases hf2 : f2 = [] <;>
          simp [hf1, hf2, dropTrailingEmpty]
      | cons g gs =>
        obtain ⟨rest2, h4, h5, h6⟩ := getlineScan_more rest1 f2 g gs [] false h2
        rw [h4]
        simp only [List.nil_append]
        rw [readPrerequisites_good fuel rest2 [] [] (by omega), h5]
        by_cases hf1 : f1 = [] <;> by_cases hf2 : f2 = [] <;> simp [hf1, hf2]

/-- The bound `line.length + 1` on the prerequisite loop is never what ends it: any larger
bound gives the same result. -/
theorem parseLine_fuel (fuel : Nat) (line : Str) (hfuel : line.length + 1 ≤ fuel) :
    parseLineWith fuel line = parseLine line := by
  rw [parseLine, parseLineWith_eq fuel line hfuel, parseLineWith_eq _ line (Nat.le_refl _)]

theorem parseLine_nonempty {line : Str} {c : Course} (h : parseLine line = some c) :
    c.courseNumber ≠ [] ∧ c.courseName ≠ [] := by
  rw [parseLine, parseLineWith_eq _ line (Nat.le_refl _)] at h
  split at h
  · split at h
    · simp at h
    · rename_i hne
      simp only [Option.some.injEq] at h
      subst h
      exact not_or.1 hne
  · simp at h

theorem firstPass_eq (lines : List Str) (courses : List Course) (cout : Str) :
    firstPass lines courses cout =
      (courses ++ lines.filterMap parseLine,
        cout ++ (List.replicate (lines.countP (fun l => (parseLine l).isNone))
          invalidFormatMsg).flatten) := by
  induction lines generalizing courses cout with
  | nil => simp [firstPass]
  | cons line rest ih =>
    rw [firstPass]
    cases h : parseLine line with
    | none =>
      simp only [ih, List.filterMap_cons, h, List.countP_cons, Option.isNone_none, if_true,
        List.replicate_succ, List.flatten_cons, List.append_assoc]
    | some c =>
      simp [ih, List.filterMap_cons, h, List.countP_cons]

theorem mem_inOrderVisit_addCourses {t : Node} {rs : List Course} {x : Course} :
    x ∈ inOrderVisit (addCourses t rs) ↔ x ∈ inOrderVisit t ∨ x ∈ rs := by
  rw [(inOrderVisit_addCourses_perm t rs).mem_iff, List.mem_append]

theorem dropTrailingEmpty_eq (l : List Str) :
    dropTrailingEmpty l = if l.getLast? = some [] then l.dropLast else l := by
  induction l with
  | nil => simp [dropTrailingEmpty]
  | cons f fs ih =>
    cases fs with
    | nil => by_cases hf : f = [] <;> simp [dropTrailingEmpty, hf, eq_comm]
    | cons g gs =>
      rw [dropTrailingEmpty, ih, List.getLast?_cons_cons]
      split <;> simp

theorem loadCourses_recordsNonEmpty (s : Catalog) (file : Option (List Str))
    (h : s.recordsNonEmpty) : (loadCourses s file).recordsNonEmpty := by
  cases file with
  | none => exact h
  | some lines =>
    have hc : ∀ c ∈ s.courses ++ lines.filterMap parseLine,
        c.courseNumber ≠ [] ∧ c.courseName ≠ [] := by
      intro c hc
      rcases List.mem_append.1 hc with hc | hc
      · exact h.1 c hc
      · obtain ⟨line, _, hl⟩ := List.mem_filterMap.1 hc
        exact parseLine_nonempty hl
    simp only [loadCourses, firstPass_eq, Catalog.recordsNonEmpty]
    refine ⟨hc, ?_⟩
    intro c hcv
    rcases mem_inOrderVisit_addCourses.1 hcv with hcv | hcv
    · exact h.2 c hcv
    · exact hc c hcv

theorem foldl_loadCourses_recordsNonEmpty (files : List (Option (List Str))) (s : Catalog)
    (h : s.recordsNonEmpty) : (files.foldl loadCourses s).recordsNonEmpty := by
  induction files generalizing s with
  | nil => exact h
  | cons f fs ih => exact ih _ (loadCourses_recordsNonEmpty s f h)

/-! ## The loader: claims -/

/-- C8: after any sequence of `loadCourses` calls from the initial state, on files that can
be opened or not and with any lines, every record of the list `courses` and every record of
the tree has a non-empty course number and a non-empty course name. -/
theorem loadCourses_records_nonempty (files : List (Option (List Str))) :
    (∀ c ∈ (files.foldl loadCourses Catalog.initial).courses,
      c.courseNumber ≠ [] ∧ c.courseName ≠ []) ∧
    (∀ c ∈ inOrderVisit (files.foldl loadCourses Catalog.initial).root,
      c.courseNumber ≠ [] ∧ c.courseName ≠ []) :=
  foldl_loadCourses_recordsNonEmpty files Catalog.initial
    ⟨by simp [Catalog.initial], by simp [Catalog.initial, inOrderVisit]⟩

/-- C8 at a concrete input: a file that cannot be opened, then a file with an invalid line
and the line `B,b`; the record of `B,b` is in the tree and its fields are not empty. -/
theorem loadCourses_records_nonempty_witness :
    course0 "B" "b" ∈ inOrderVisit
      ([none, some [",x".toList, "B,b".toList]].foldl loadCourses Catalog.initial).root ∧
    (course0 "B" "b").courseNumber ≠ [] ∧ (course0 "B" "b").courseName ≠ [] :=
  ⟨by decide, (loadCourses_records_nonempty [none, some [",x".toList, "B,b".toList]]).2
    (course0 "B" "b") (by decide)⟩

/-- C9 fails as stated: the line `A,B,` is accepted and its comma-separated fields after the
second are the one empty field, but the record has no prerequisite. -/
theorem parseLine_fields_counterexample :
    splitComma "A,B,".toList = ["A".toList, "B".toList, []] ∧
    parseLine "A,B,".toList =
      some { courseNumber := "A".toList, courseName := "B".toList, prerequisites := [] } ∧
    ¬ (parseLine "A,B,".toList).map Course.prerequisites =
      some ((splitComma "A,B,".toList).drop 2) := by
  decide

/-- C9, amended: a line is accepted if and only if its first and its second comma-separated
field are both present and non-empty; the record of an accepted line has the first field as
course number, the second as course name, both untrimmed, and as prerequisites the remaining
fields in order, without the last one when that one is empty (a line ending in a comma). The
empty line, a line with one field and a line whose first or second field is empty give no
record. The prerequisite loop ends by a failed `getline`: more iterations than
`line.length + 1` change nothing. -/
theorem parseLine_fields (line : Str) :
    splitComma line = List.splitOn ',' line ∧
    ((parseLine line).isSome = true ↔
      ∃ f1 f2 rest, splitComma line = f1 :: f2 :: rest ∧ f1 ≠ [] ∧ f2 ≠ []) ∧
    (∀ f1 f2 rest, splitComma line = f1 :: f2 :: rest → f1 ≠ [] → f2 ≠ [] →
      parseLine line = some {
        courseNumber := f1
        courseName := f2
        prerequisites := if rest.getLast? = some [] then rest.dropLast else rest }) ∧
    (∀ f, splitComma line = [f] → parseLine line = none) ∧
    parseLine [] = none ∧
    (∀ fuel, line.length + 1 ≤ fuel → parseLineWith fuel line = parseLine line) := by
  have key := parseLineWith_eq (line.length + 1) line (Nat.le_refl _)
  rw [← parseLine] at key
  refine ⟨splitComma_eq_splitOn line, ?_, ?_, ?_, by decide,
    fun fuel hfuel => parseLine_fuel fuel line hfuel⟩
  · rw [key]
    constructor
    · intro h
      split at h
      · rename_i f1 f2 rest hs
        by_cases hne : f1 = [] ∨ f2 = []
        · simp [hne] at h
        · exact ⟨f1, f2, rest, hs, (not_or.1 hne).1, (not_or.1 hne).2⟩
      · simp at h
    · rintro ⟨f1, f2, rest, hs, h1, h2⟩
      rw [hs]
      simp [h1, h2]
  · intro f1 f2 rest hs h1 h2
    rw [key, hs]
    simp [h1, h2, dropTrailingEmpty_eq]
  · intro f hs
    rw [key, hs]

/-- C9, amended, at a concrete input: the line `A,B,,C`. -/
theorem parseLine_fields_witness :
    splitComma "A,B,,C".toList = ["A".toList, "B".toList, [], "C".toList] ∧
    parseLine "A,B,,C".toList = some {
      courseNumber := "A".toList
      courseName := "B".toList
      prerequisites := [[], "C".toList] } :=
  ⟨by decide, (parseLine_fields "A,B,,C".toList).2.2.1 "A".toList "B".toList [[], "C".toList]
    (by decide) (by decide) (by decide)⟩

/-- C10: for a file that can be opened, the first pass of `loadCourses` appends to `courses`
the records of the accepted lines, in the order of the lines, so as many records as there are
accepted lines; it writes the diagnostic `Error: Invalid course data format` once per
rejected line, then the load writes its closing message; and the record of every accepted
line, whatever lines precede it, is in `courses` and in the tree after the load. -/
theorem loadCourses_skips_malformed (s : Catalog) (lines : List Str) :
    (loadCourses s (some lines)).courses = s.courses ++ lines.filterMap parseLine ∧
    (loadCourses s (some lines)).courses.length =
      s.courses.length + lines.countP (fun l => (parseLine l).isSome) ∧
    (loadCourses s (some lines)).cout =
      s.cout ++ (List.replicate (lines.countP (fun l => (parseLine l).isNone))
        "Error: Invalid course data format\n".toList).flatten ++
        "Courses loaded successfully.\n".toList ∧
    (∀ line ∈ lines, ∀ c, parseLine line = some c →
      c ∈ (loadCourses s (some lines)).courses ∧
      c ∈ inOrderVisit (loadCourses s (some lines)).root) := by
  have hcs : (loadCourses s (some lines)).courses = s.courses ++ lines.filterMap parseLine := by
    simp only [loadCourses, firstPass_eq]
  have hroot : (loadCourses s (some lines)).root =
      addCourses s.root (s.courses ++ lines.filterMap parseLine) := by
    simp only [loadCourses, firstPass_eq]
  refine ⟨hcs, ?_, ?_, ?_⟩
  · rw [hcs, List.length_append, List.length_filterMap_eq_countP]
  · simp only [loadCourses, firstPass_eq]
    rfl
  · intro line hl c hc
    have hm : c ∈ s.courses ++ lines.filterMap parseLine :=
      List.mem_append_right _ (List.mem_filterMap.2 ⟨line, hl, hc⟩)
    rw [hcs, hroot]
    exact ⟨hm, mem_inOrderVisit_addCourses.2 (Or.inr hm)⟩

/-- C10 at a concrete input: the one-field line `A` is skipped and the line `B,b` after it is
loaded into the tree. -/
theorem loadCourses_skips_malformed_witness :
    parseLine "A".toList = none ∧
    "B,b".toList ∈ ["A".toList, "B,b".toList] ∧
    parseLine "B,b".toList = some (course0 "B" "b") ∧
    course0 "B" "b" ∈
      (loadCourses Catalog.initial (some ["A".toList, "B,b".toList])).courses ∧
    course0 "B" "b" ∈
      inOrderVisit (loadCourses Catalog.initial (some ["A".toList, "B,b".toList])).root :=
  ⟨by decide, by decide, by decide,
    (loadCourses_skips_malformed Catalog.initial ["A".toList, "B,b".toList]).2.2.2
      "B,b".toList (by decide) (course0 "B" "b") (by decide)⟩

/-! ## Loading twice, printing -/

set_option maxRecDepth 100000

theorem loadCourses_some (s : Catalog) (lines : List Str) :
    loadCourses s (some lines) =
      { root := addCourses s.root (s.courses ++ lines.filterMap parseLine),
        courses := s.courses ++ lines.filterMap parseLine,
        cout := s.cout ++ (List.replicate (lines.countP (fun l => (parseLine l).isNone))
          invalidFormatMsg).flatten ++ loadedMsg } := by
  simp only [loadCourses, firstPass_eq]

theorem printPrerequisites_eq (p : Str) (ps : List Str) :
    printPrerequisites (p :: ps) = List.intercalate " ".toList (p :: ps) ++ " ".toList := by
  induction ps generalizing p with
  | nil => simp [printPrerequisites, List.intercalate]
  | cons q qs ih =>
    rw [printPrerequisites, ih q]
    simp [List.intercalate]

/-- C11 at the failing input: after a load of the line `A,a`, a load of the line `B,b`
leaves the nodes A, A, B in the tree, where inserting the one accepted record into the tree
as it was gives A, B. -/
theorem loadCourses_second_load_reinserts :
    inOrderVisit (loadCourses (loadCourses Catalog.initial (some ["A,a".toList]))
        (some ["B,b".toList])).root =
      [course0 "A" "a", course0 "A" "a", course0 "B" "b"] ∧
    ["B,b".toList].filterMap parseLine = [course0 "B" "b"] ∧
    inOrderVisit (addCourses (loadCourses Catalog.initial (some ["A,a".toList])).root
        [course0 "B" "b"]) = [course0 "A" "a", course0 "B" "b"] ∧
    (loadCourses (loadCourses Catalog.initial (some ["A,a".toList]))
        (some ["B,b".toList])).root ≠
      addCourses (loadCourses Catalog.initial (some ["A,a".toList])).root
        [course0 "B" "b"] := by
  decide

/-- C12: when the file cannot be opened, `loadCourses` leaves the tree and the list
`courses` as they were and writes the one line `Error: Could not open the file.`, in which
the closing message of a load does not occur. -/
theorem loadCourses_unreadable (s : Catalog) :
    (loadCourses s none).root = s.root ∧
    (loadCourses s none).courses = s.courses ∧
    (loadCourses s none).cout = s.cout ++ "Error: Could not open the file.\n".toList ∧
    ¬ List.IsInfix "Courses loaded successfully.\n".toList
      "Error: Could not open the file.\n".toList :=
  ⟨rfl, rfl, rfl, by decide⟩

/-- C13 fails as stated: for the course CSCI200 with the one prerequisite CSCI100 the
prerequisite line ends in a space after the last course number, so it is not the course
numbers separated by single spaces. -/
theorem printCourse_output_counterexample :
    printCourse (loadCourses Catalog.initial (some ["CSCI100,Intro to CS".toList,
        "CSCI200,Data Structures,CSCI100".toList])).root "CSCI200".toList =
      "Course Number: CSCI200, Course Name: Data Structures\nPrerequisites: CSCI100 \n".toList ∧
    prerequisitesLineSpec ["CSCI100".toList] = "Prerequisites: CSCI100\n".toList ∧
    printCourse (loadCourses Catalog.initial (some ["CSCI100,Intro to CS".toList,
        "CSCI200,Data Structures,CSCI100".toList])).root "CSCI200".toList ≠
      "Course Number: CSCI200, Course Name: Data Structures\n".toList ++
        prerequisitesLineSpec ["CSCI100".toList] := by
  decide

/-- C13, amended: `printCourse` writes `Course not found.` alone when the lookup misses;
otherwise the line `Course Number: <id>, Course Name: <name>` of the record found, followed
by the line `No prerequisites` when the record has no prerequisite, and otherwise by one line
made of `Prerequisites: `, the prerequisite course numbers in stored order separated by
single spaces, and one more space after the last. -/
theorem printCourse_output (root : Node) (k : Str) :
    (searchCourse root k = Node.null → printCourse root k = "Course not found.\n".toList) ∧
    (∀ c l r, searchCourse root k = Node.mk c l r →
      printCourse root k =
        "Course Number: ".toList ++ c.courseNumber ++ ", Course Name: ".toList ++
          c.courseName ++ "\n".toList ++
          (if c.prerequisites = [] then "No prerequisites\n".toList
           else "Prerequisites: ".toList ++ List.intercalate " ".toList c.prerequisites ++
             " \n".toList)) := by
  constructor
  · intro h
    simp [printCourse, h]
  · intro c l r h
    simp only [printCourse, h]
    cases hp : c.prerequisites with
    | nil => simp
    | cons p ps =>
      rw [printPrerequisites_eq]
      simp

/-- C13, amended, at a concrete input: after loading `CSCI100,Intro to CS` and
`CSCI200,Data Structures,CSCI100`, the query CSCI200 prints name and prerequisite, the query
CSCI999 prints `Course not found.`. -/
theorem printCourse_output_witness :
    printCourse (loadCourses Catalog.initial (some ["CSCI100,Intro to CS".toList,
        "CSCI200,Data Structures,CSCI100".toList])).root "CSCI999".toList =
      "Course not found.\n".toList ∧
    printCourse (loadCourses Catalog.initial (some ["CSCI100,Intro to CS".toList,
        "CSCI200,Data Structures,CSCI100".toList])).root "CSCI200".toList =
      "Course Number: ".toList ++ "CSCI200".toList ++ ", Course Name: ".toList ++
        "Data Structures".toList ++ "\n".toList ++
        (if ["CSCI100".toList] = [] then "No prerequisites\n".toList
         else "Prerequisites: ".toList ++ List.intercalate " ".toList ["CSCI100".toList] ++
           " \n".toList) :=
  ⟨(printCourse_output _ _).1 (by decide),
    (printCourse_output _ _).2
      { courseNumber := "CSCI200".toList
        courseName := "Data Structures".toList
        prerequisites := ["CSCI100".toList] } Node.null Node.null (by decide)⟩

/-- C14: on a tree that is not empty `printCourseList` writes the line
`<courseNumber>, <courseName>` of every node, in the order of the in-order visit, and nothing
else; on the empty tree it writes the one line `No courses loaded.`, and `printCourse` then
writes `Course not found.` for every course number; the tree is empty after loading, from
the initial state, a file without a valid line. -/
theorem printCourseList_output :
    (∀ root, root ≠ Node.null →
      printCourseList root = ((inOrderVisit root).map
        (fun c => c.courseNumber ++ ", ".toList ++ c.courseName ++ "\n".toList)).flatten) ∧
    printCourseList Node.null = "No courses loaded.\n".toList ∧
    (∀ k, printCourse Node.null k = "Course not found.\n".toList) ∧
    (∀ lines, (∀ l ∈ lines, parseLine l = none) →
      (loadCourses Catalog.initial (some lines)).root = Node.null) := by
  refine ⟨?_, rfl, fun k => rfl, ?_⟩
  · intro root h
    cases root with
    | null => exact absurd rfl h
    | mk c l r =>
      rw [printCourseList, inOrderTraversal_eq]
      rfl
  · intro lines h
    have : lines.filterMap parseLine = [] := by
      rw [List.filterMap_eq_nil_iff]
      exact h
    rw [loadCourses_some, this]
    rfl

/-- C14 at a concrete input: the listing after loading `B,b` and `A,a`, and the empty tree
after loading a file whose only line has one field. -/
theorem printCourseList_output_witness :
    printCourseList (loadCourses Catalog.initial (some ["B,b".toList, "A,a".toList])).root =
      "A, a\nB, b\n".toList ∧
    (loadCourses Catalog.initial (some ["A".toList])).root = Node.null :=
  ⟨(printCourseList_output.1 _ (by decide)).trans (by decide),
    printCourseList_output.2.2.2 ["A".toList] (by decide)⟩

/-! ## Invariant, frame and shape of the tree -/

theorem searchPath_isSome (t : Node) (k : Str) (c : Course) (l rt : Node)
    (h : searchCourse t k = Node.mk c l rt) : ∃ p, searchPath t k = some p := by
  induction t with
  | null => simp [searchCourse] at h
  | mk c0 l0 r0 ihl ihr =>
    by_cases hc : c0.courseNumber = k
    · exact ⟨[], by simp [searchPath, hc]⟩
    · by_cases hkc : strLt k c0.courseNumber = true
      · simp only [searchCourse, hc, hkc, if_true, if_false] at h
        obtain ⟨p, hp⟩ := ihl h
        exact ⟨false :: p, by simp [searchPath, hc, hkc, hp]⟩
      · have hkc' : strLt k c0.courseNumber = false := by simpa using hkc
        simp only [searchCourse, hc, hkc', if_false, Bool.false_eq_true] at h
        obtain ⟨p, hp⟩ := ihr h
        exact ⟨true :: p, by simp [searchPath, hc, hkc, hp]⟩

theorem searchPath_add (t : Node) (r : Course) (k : Str) (p : List Bool)
    (h : searchPath t k = some p) : searchPath (addCourseToTree t r) k = some p := by
  induction t generalizing p with
  | null => simp [searchPath] at h
  | mk c l rt ihl ihr =>
    rw [addCourseToTree]
    by_cases hc : c.courseNumber = k
    · split <;> simpa [searchPath, hc] using h
    · by_cases hkc : strLt k c.courseNumber = true
      · simp only [searchPath, hc, hkc, if_true, if_false, Option.map_eq_some'] at h
        obtain ⟨q, hq, e⟩ := h
        split
        · simp [searchPath, hc, hkc, ihl q hq, e]
        · simp [searchPath, hc, hkc, hq, e]
      · have hkc' : strLt k c.courseNumber = false := by simpa using hkc
        simp only [searchPath, hc, hkc', if_false, Bool.false_eq_true,
          Option.map_eq_some'] at h
        obtain ⟨q, hq, e⟩ := h
        split
        · simp [searchPath, hc, hkc, hq, e]
        · simp [searchPath, hc, hkc, ihr q hq, e]

theorem searchCourse_add_found (t : Node) (r : Course) (k : Str) (c : Course) (l rt : Node)
    (h : searchCourse t k = Node.mk c l rt) :
    searchCourse (addCourseToTree t r) k = Node.mk c l rt ∨
      searchCourse (addCourseToTree t r) k = addCourseToTree (Node.mk c l rt) r := by
  induction t with
  | null => simp [searchCourse] at h
  | mk c0 l0 r0 ihl ihr =>
    by_cases hc : c0.courseNumber = k
    · simp only [searchCourse, hc, if_true] at h
      rw [← h]
      right
      rw [addCourseToTree]
      split <;> simp [searchCourse, hc]
    · rw [addCourseToTree]
      by_cases hkc : strLt k c0.courseNumber = true
      · simp only [searchCourse, hc, hkc, if_true, if_false] at h
        split
        · simpa [searchCourse, hc, hkc] using ihl h
        · left
          simpa [searchCourse, hc, hkc] using h
      · have hkc' : strLt k c0.courseNumber = false := by simpa using hkc
        simp only [searchCourse, hc, hkc', if_false, Bool.false_eq_true] at h
        split
        · left
          simpa [searchCourse, hc, hkc] using h
        · simpa [searchCourse, hc, hkc] using ihr h

theorem searchCourse_add_missing (t : Node) (r : Course) (k : Str)
    (h : searchCourse t k = Node.null) :
    searchCourse (addCourseToTree t r) k =
      if r.courseNumber = k then Node.mk r Node.null Node.null else Node.null := by
  induction t with
  | null => simp [addCourseToTree, searchCourse]
  | mk c l rt ihl ihr =>
    by_cases hc : c.courseNumber = k
    · simp [searchCourse, hc] at h
    · rw [addCourseToTree]
      by_cases hkc : strLt k c.courseNumber = true
      · simp only [searchCourse, hc, hkc, if_true, if_false] at h
        by_cases hrc : strLt r.courseNumber c.courseNumber = true
        · simpa [searchCourse, hc, hkc, hrc] using ihl h
        · have hrk : r.courseNumber ≠ k := fun e => hrc (e ▸ hkc)
          simp [searchCourse, hc, hkc, hrc, hrk, h]
      · have hkc' : strLt k c.courseNumber = false := by simpa using hkc
        simp only [searchCourse, hc, hkc', if_false, Bool.false_eq_true] at h
        by_cases hrc : strLt r.courseNumber c.courseNumber = true
        · have hrk : r.courseNumber ≠ k := fun e => hkc (e ▸ hrc)
          simp [searchCourse, hc, hkc, hrc, hrk, h]
        · simpa [searchCourse, hc, hkc, hrc] using ihr h

theorem courseAt_add (t : Node) (r : Course) (path : List Bool) (c : Course)
    (h : t.courseAt path = some c) : (addCourseToTree t r).courseAt path = some c := by
  induction t generalizing path with
  | null => simp [Node.courseAt] at h
  | mk c0 l rt ihl ihr =>
    rw [addCourseToTree]
    cases path with
    | nil => split <;> simpa [Node.courseAt] using h
    | cons b path =>
      cases b with
      | false =>
        simp only [Node.courseAt] at h
        split
        · simpa [Node.courseAt] using ihl path h
        · simpa [Node.courseAt] using h
      | true =>
        simp only [Node.courseAt] at h
        split
        · simpa [Node.courseAt] using h
        · simpa [Node.courseAt] using ihr path h

theorem courseAt_add_new (t : Node) (r : Course) :
    ∃ path, t.courseAt path = none ∧ (addCourseToTree t r).courseAt path = some r := by
  induction t with
  | null => exact ⟨[], rfl, rfl⟩
  | mk c l rt ihl ihr =>
    rw [addCourseToTree]
    split
    · obtain ⟨p, h1, h2⟩ := ihl
      exact ⟨false :: p, by simpa [Node.courseAt] using h1, by simpa [Node.courseAt] using h2⟩
    · obtain ⟨p, h1, h2⟩ := ihr
      exact ⟨true :: p, by simpa [Node.courseAt] using h1, by simpa [Node.courseAt] using h2⟩

/-- C16: the ordering `weakBST` (smaller course numbers in the left subtree of every node,
greater or equal ones in its right subtree) holds for the empty tree and is kept by
`addCourseToTree` for every record, so it holds in every tree reached by insertions, with
or without repeated course numbers. -/
theorem weakBST_invariant :
    (∀ c l r, weakBST (Node.mk c l r) = true ↔
      (∀ x ∈ inOrderVisit l, strLt x.courseNumber c.courseNumber = true) ∧
      (∀ x ∈ inOrderVisit r, strLe c.courseNumber x.courseNumber = true) ∧
      weakBST l = true ∧ weakBST r = true) ∧
    weakBST Node.null = true ∧
    (∀ t r, weakBST t = true → weakBST (addCourseToTree t r) = true) ∧
    (∀ rs, weakBST (addCourses Node.null rs) = true) :=
  ⟨weakBST_mk, rfl, weakBST_add, fun rs => weakBST_addCourses Node.null rs rfl⟩

/-- C16 at a concrete input: a tree holding the course number X twice, and the insertion
of a third X into it. -/
theorem weakBST_invariant_witness :
    weakBST (addCourses Node.null [course0 "X" "name1", course0 "X" "name2"]) = true ∧
    weakBST (addCourseToTree (addCourses Node.null [course0 "X" "name1", course0 "X" "name2"])
      (course0 "X" "name3")) = true :=
  ⟨by decide, weakBST_invariant.2.2.1 _ _ (by decide)⟩

/-- C17: for every tree, ordered or not, every record `r` and every course number `k`: when
the lookup of `k` finds a node, after the insertion of `r` it finds the node at the same
position with the same record, its subtree being as before or having received `r`; when
the lookup misses, after the insertion it finds the new leaf holding `r` if `k` is `r`'s
course number and misses otherwise. The insertion adds one node, at a position that was
empty, and the record at every position of the tree stays. -/
theorem addCourseToTree_frame (t : Node) (r : Course) (k : Str) :
    (∀ c l rt, searchCourse t k = Node.mk c l rt →
      (searchCourse (addCourseToTree t r) k = Node.mk c l rt ∨
        searchCourse (addCourseToTree t r) k = addCourseToTree (Node.mk c l rt) r) ∧
      (searchCourse (addCourseToTree t r) k).course? = some c ∧
      searchPath (addCourseToTree t r) k = searchPath t k) ∧
    (searchCourse t k = Node.null →
      searchCourse (addCourseToTree t r) k =
        if r.courseNumber = k then Node.mk r Node.null Node.null else Node.null) ∧
    (inOrderVisit (addCourseToTree t r)).length = (inOrderVisit t).length + 1 ∧
    (∀ path c, t.courseAt path = some c → (addCourseToTree t r).courseAt path = some c) ∧
    (∃ path, t.courseAt path = none ∧ (addCourseToTree t r).courseAt path = some r) := by
  refine ⟨?_, searchCourse_add_missing t r k, ?_, courseAt_add t r, courseAt_add_new t r⟩
  · intro c l rt h
    refine ⟨searchCourse_add_found t r k c l rt h, ?_, ?_⟩
    · rw [searchCourse_add, h]
      simp [Node.course?]
    · obtain ⟨p, hp⟩ := searchPath_isSome t k c l rt h
      rw [hp, searchPath_add t r k p hp]
  · simpa using (inOrderVisit_add_perm t r).length_eq

/-- C17 at a concrete input: in the tree of B, A, C the lookups of A and of D, before and
after the insertion of D. -/
theorem addCourseToTree_frame_witness :
    searchCourse (addCourses Node.null [course0 "B" "b", course0 "A" "a", course0 "C" "c"])
      "A".toList = Node.mk (course0 "A" "a") Node.null Node.null ∧
    searchCourse (addCourseToTree
      (addCourses Node.null [course0 "B" "b", course0 "A" "a", course0 "C" "c"])
      (course0 "D" "d")) "A".toList = Node.mk (course0 "A" "a") Node.null Node.null ∧
    searchCourse (addCourseToTree
      (addCourses Node.null [course0 "B" "b", course0 "A" "a", course0 "C" "c"])
      (course0 "D" "d")) "D".toList = Node.mk (course0 "D" "d") Node.null Node.null :=
  ⟨by decide, by decide,
    ((addCourseToTree_frame
      (addCourses Node.null [course0 "B" "b", course0 "A" "a", course0 "C" "c"])
      (course0 "D" "d") "D".toList).2.1 (by decide)).trans (by decide)⟩

theorem addCourseToTree_rightSpine (pre : List Course) (r : Course)
    (h : ∀ c ∈ pre, strLe c.courseNumber r.courseNumber = true) :
    addCourseToTree (rightSpine pre) r = rightSpine (pre ++ [r]) := by
  induction pre with
  | nil => rfl
  | cons c pre ih =>
    have hc : strLt r.courseNumber c.courseNumber = false := by
      simpa [strLe] using h c (List.mem_cons_self _ _)
    simp only [rightSpine, addCourseToTree, hc, Bool.false_eq_true, if_false]
    rw [ih (fun x hx => h x (List.mem_cons_of_mem _ hx))]
    rfl

theorem addCourses_rightSpine (pre rs : List Course) (h : (pre ++ rs).Pairwise numberLe) :
    addCourses (rightSpine pre) rs = rightSpine (pre ++ rs) := by
  induction rs generalizing pre with
  | nil => simp [addCourses]
  | cons r rs ih =>
    rw [addCourses, addCourseToTree_rightSpine pre r]
    · have h' : (pre ++ [r] ++ rs).Pairwise numberLe := by simpa using h
      simpa using ih (pre ++ [r]) h'
    · intro c hc
      exact (List.pairwise_append.1 h).2.2 c hc r (List.mem_cons_self _ _)

theorem height_rightSpine (rs : List Course) : (rightSpine rs).height = rs.length := by
  induction rs with
  | nil => rfl
  | cons c rs ih => simp [rightSpine, Node.height, ih]

theorem noLeftChild_rightSpine (rs : List Course) : (rightSpine rs).noLeftChild = true := by
  induction rs with
  | nil => rfl
  | cons c rs ih => simp [rightSpine, Node.noLeftChild, ih]

theorem searchVisits_rightSpine (pre : List Course) (r : Course) (post : List Course)
    (h : ∀ c ∈ pre, strLt c.courseNumber r.courseNumber = true) :
    searchVisits (rightSpine (pre ++ r :: post)) r.courseNumber = pre.length + 1 ∧
    searchCourse (rightSpine (pre ++ r :: post)) r.courseNumber =
      Node.mk r Node.null (rightSpine post) := by
  induction pre with
  | nil => simp [rightSpine, searchVisits, searchCourse]
  | cons c pre ih =>
    have hc := h c (List.mem_cons_self _ _)
    have hne : c.courseNumber ≠ r.courseNumber := by
      intro e
      rw [e, strLt_irrefl] at hc
      exact Bool.noConfusion hc
    have hlt : strLt r.courseNumber c.courseNumber = false := strLt_asymm hc
    obtain ⟨h1, h2⟩ := ih (fun x hx => h x (List.mem_cons_of_mem _ hx))
    simp [rightSpine, searchVisits, searchCourse, hne, hlt, h1, h2]

/-- C18: a load from a file that can be opened ends with the list `courses` extended by the
records `rs` accepted from the file and with the tree obtained by inserting the whole list,
the earlier records and then `rs`, into the tree as it was. So loading the same file twice
from the initial state leaves three nodes for every accepted line, and the in-order visit
holds every record three times as often as the accepted records do. -/
theorem loadCourses_reinserts (s : Catalog) (lines : List Str) :
    (loadCourses s (some lines)).courses = s.courses ++ lines.filterMap parseLine ∧
    (loadCourses s (some lines)).root =
      addCourses s.root (s.courses ++ lines.filterMap parseLine) ∧
    (inOrderVisit (loadCourses (loadCourses Catalog.initial (some lines))
        (some lines)).root).length = 3 * (lines.filterMap parseLine).length ∧
    (∀ c, (inOrderVisit (loadCourses (loadCourses Catalog.initial (some lines))
        (some lines)).root).count c = 3 * (lines.filterMap parseLine).count c) ∧
    (∀ c, (inOrderVisit (loadCourses Catalog.initial (some lines)).root).count c =
      (lines.filterMap parseLine).count c) := by
  have hp : (inOrderVisit (loadCourses (loadCourses Catalog.initial (some lines))
      (some lines)).root).Perm (lines.filterMap parseLine ++
        (lines.filterMap parseLine ++ lines.filterMap parseLine)) := by
    simp only [loadCourses_some, Catalog.initial, List.nil_append]
    exact (inOrderVisit_addCourses_perm _ _).trans
      ((inOrderVisit_addCourses_perm Node.null _).append_right _)
  have hp1 : (inOrderVisit (loadCourses Catalog.initial (some lines)).root).Perm
      (lines.filterMap parseLine) := by
    simp only [loadCourses_some, Catalog.initial, List.nil_append]
    exact inOrderVisit_addCourses_perm Node.null _
  refine ⟨by rw [loadCourses_some], by rw [loadCourses_some], ?_, ?_, ?_⟩
  · rw [hp.length_eq]
    simp only [List.length_append]
    omega
  · intro c
    rw [hp.count_eq]
    simp only [List.count_append]
    omega
  · intro c
    rw [hp1.count_eq]

/-- C19: records whose course numbers are in non-decreasing order, inserted in that order
into the empty tree, give the tree in which no node has a left child and whose height is
the number of records; when the course numbers are strictly ascending the lookup of the
last one visits every node and finds the last record. -/
theorem sorted_input_right_spine (rs : List Course)
    (h : rs.Chain' (fun a b => strLe a.courseNumber b.courseNumber = true)) :
    addCourses Node.null rs = rightSpine rs ∧
    (addCourses Node.null rs).noLeftChild = true ∧
    (addCourses Node.null rs).height = rs.length ∧
    (∀ pre r, rs = pre ++ [r] →
      rs.Chain' (fun a b => strLt a.courseNumber b.courseNumber = true) →
      searchVisits (addCourses Node.null rs) r.courseNumber = rs.length ∧
      ∃ l rt, searchCourse (addCourses Node.null rs) r.courseNumber = Node.mk r l rt) := by
  haveI := numberLe_trans
  have hs : rs.Pairwise numberLe := List.chain'_iff_pairwise.1 h
  have he : addCourses Node.null rs = rightSpine rs := by
    simpa [rightSpine] using addCourses_rightSpine [] rs (by simpa using hs)
  refine ⟨he, by rw [he]; exact noLeftChild_rightSpine rs,
    by rw [he]; exact height_rightSpine rs, ?_⟩
  intro pre r e hlt
  haveI : IsTrans Course (fun a b => strLt a.courseNumber b.courseNumber = true) :=
    ⟨fun _ _ _ h1 h2 => strLt_trans h1 h2⟩
  have hp : rs.Pairwise (fun a b => strLt a.courseNumber b.courseNumber = true) :=
    List.chain'_iff_pairwise.1 hlt
  rw [e] at hp
  have hpre : ∀ c ∈ pre, strLt c.courseNumber r.courseNumber = true :=
    fun c hc => (List.pairwise_append.1 hp).2.2 c hc r (List.mem_singleton_self r)
  obtain ⟨h1, h2⟩ := searchVisits_rightSpine pre r [] hpre
  rw [he, e]
  exact ⟨by rw [h1]; simp, _, _, h2⟩

theorem chain'_three {R : Course → Course → Prop} {a b c : Course} (h1 : R a b)
    (h2 : R b c) : [a, b, c].Chain' R :=
  List.chain'_cons.2 ⟨h1, List.chain'_cons.2 ⟨h2, List.chain'_singleton c⟩⟩

/-- C19 at a concrete input: A, B, C inserted in that order. -/
theorem sorted_input_right_spine_witness :
    [course0 "A" "a", course0 "B" "b", course0 "C" "c"].Chain'
      (fun a b => strLe a.courseNumber b.courseNumber = true) ∧
    (addCourses Node.null [course0 "A" "a", course0 "B" "b", course0 "C" "c"]).noLeftChild =
      true ∧
    (addCourses Node.null [course0 "A" "a", course0 "B" "b", course0 "C" "c"]).height = 3 ∧
    searchVisits (addCourses Node.null [course0 "A" "a", course0 "B" "b", course0 "C" "c"])
      (course0 "C" "c").courseNumber = 3 :=
  ⟨chain'_three (by decide) (by decide),
    (sorted_input_right_spine [course0 "A" "a", course0 "B" "b", course0 "C" "c"]
      (chain'_three (by decide) (by decide))).2.1,
    (sorted_input_right_spine [course0 "A" "a", course0 "B" "b", course0 "C" "c"]
      (chain'_three (by decide) (by decide))).2.2.1,
    ((sorted_input_right_spine [course0 "A" "a", course0 "B" "b", course0 "C" "c"]
      (chain'_three (by decide) (by decide))).2.2.2
      [course0 "A" "a", course0 "B" "b"] (course0 "C" "c") rfl
      (chain'_three (by decide) (by decide))).1⟩

theorem dropTrailingEmpty_append_singleton (mid : List Str) (last : Str) :
    dropTrailingEmpty (mid ++ [last]) = if last = [] then mid else mid ++ [last] := by
  rw [dropTrailingEmpty_eq]
  by_cases h : last = []
  · simp [h]
  · simp [h, eq_comm]

theorem menuStep_shows_menu (file : Option (List Str)) (s : Shell) :
    ∃ out, (menuStep file s).1.catalog.cout = s.catalog.cout ++ menuText ++ out := by
  unfold menuStep
  simp only
  split
  · cases file with
    | none => exact ⟨cannotOpenMsg, rfl⟩
    | some lines =>
      rw [loadCourses_some]
      exact ⟨(List.replicate (lines.countP (fun l => (parseLine l).isNone))
        invalidFormatMsg).flatten ++ loadedMsg, by simp only [List.append_assoc]⟩
  · split
    · exact ⟨_, rfl⟩
    · split
      · exact ⟨"Enter course number: ".toList ++ printCourse s.catalog.root
          (getline (ignore (readInt s.cin s.choice).1) [] '\n').2,
          by simp only [List.append_assoc]⟩
      · split
        · exact ⟨_, rfl⟩
        · exact ⟨intToStr (readInt s.cin s.choice).2 ++ " is not a valid option.\n".toList,
            by simp only [List.append_assoc]⟩

/-! ## Empty prerequisite fields and the menu: claims -/

/-- C20: of the fields after the second, an empty one that is not the last is kept as an
empty prerequisite and an empty last one is dropped. So `A,B,` gives a record without
prerequisites, for which the detail query prints `No prerequisites`, while `A,B,,` gives
the prerequisites `[""]` and `A,B,,C` gives `["", "C"]`, for which the detail query prints
a `Prerequisites: ` line. -/
theorem parseLine_empty_prerequisites :
    (∀ line f1 f2 mid last, splitComma line = f1 :: f2 :: (mid ++ [last]) →
      f1 ≠ [] → f2 ≠ [] →
      (parseLine line).map Course.prerequisites =
        some (if last = [] then mid else mid ++ [last])) ∧
    (parseLine "A,B,".toList).map Course.prerequisites = some [] ∧
    (parseLine "A,B,,".toList).map Course.prerequisites = some [[]] ∧
    (parseLine "A,B,,C".toList).map Course.prerequisites = some [[], "C".toList] ∧
    printCourse (loadCourses Catalog.initial (some ["A,B,".toList])).root "A".toList =
      "Course Number: A, Course Name: B\nNo prerequisites\n".toList ∧
    printCourse (loadCourses Catalog.initial (some ["A,B,,".toList])).root "A".toList =
      "Course Number: A, Course Name: B\nPrerequisites:  \n".toList ∧
    printCourse (loadCourses Catalog.initial (some ["A,B,,C".toList])).root "A".toList =
      "Course Number: A, Course Name: B\nPrerequisites:  C \n".toList := by
  refine ⟨?_, by decide, by decide, by decide, by decide, by decide, by decide⟩
  intro line f1 f2 mid last hs h1 h2
  rw [parseLine, parseLineWith_eq _ line (Nat.le_refl _), hs]
  simp [h1, h2, dropTrailingEmpty_append_singleton]

/-- C20 at a concrete input: the line `A,B,,C,`, whose empty third field is kept and whose
empty last field is dropped. -/
theorem parseLine_empty_prerequisites_witness :
    splitComma "A,B,,C,".toList = "A".toList :: "B".toList :: ([[], "C".toList] ++ [[]]) ∧
    (parseLine "A,B,,C,".toList).map Course.prerequisites =
      some (if ([] : Str) = [] then [[], "C".toList] else [[], "C".toList] ++ [[]]) :=
  ⟨by decide, parseLine_empty_prerequisites.1 "A,B,,C,".toList "A".toList "B".toList
    [[], "C".toList] [] (by decide) (by decide) (by decide)⟩

/-- For menu input read as an integer `n` other than 1, 2, 3 and 9, one iteration of the
loop displays the menu and prints `<n> is not a valid option.`, `n` in decimal, leaves the
tree and the list `courses` unchanged, does not end the loop, and the next iteration displays
the menu again. -/
theorem menuStep_invalid_choice (file : Option (List Str)) (s : Shell)
    (h1 : (readInt s.cin s.choice).2 ≠ 1) (h2 : (readInt s.cin s.choice).2 ≠ 2)
    (h3 : (readInt s.cin s.choice).2 ≠ 3) (h9 : (readInt s.cin s.choice).2 ≠ 9) :
    (menuStep file s).1.catalog.cout =
      s.catalog.cout ++ menuText ++ intToStr (readInt s.cin s.choice).2 ++
        " is not a valid option.\n".toList ∧
    (menuStep file s).1.catalog.root = s.catalog.root ∧
    (menuStep file s).1.catalog.courses = s.catalog.courses ∧
    (menuStep file s).2 = true ∧
    (∀ file', ∃ out, (menuStep file' (menuStep file s).1).1.catalog.cout =
      (menuStep file s).1.catalog.cout ++ menuText ++ out) := by
  refine ⟨?_, ?_, ?_, ?_, fun file' => menuStep_shows_menu file' _⟩ <;>
    simp [menuStep, h1, h2, h3, h9]

/-- The menu input `5`: the iteration prints `5 is not a valid option.` and the loop goes
on. -/
theorem menuStep_invalid_choice_five :
    (readInt (Shell.start "5\n" 0).cin (Shell.start "5\n" 0).choice).2 = 5 ∧
    (menuStep none (Shell.start "5\n" 0)).1.catalog.cout =
      menuText ++ "5 is not a valid option.\n".toList ∧
    (menuStep none (Shell.start "5\n" 0)).2 = true :=
  ⟨by decide,
    (menuStep_invalid_choice none (Shell.start "5\n" 0)
      (by decide) (by decide) (by decide) (by decide)).1.trans (by decide),
    (menuStep_invalid_choice none (Shell.start "5\n" 0)
      (by decide) (by decide) (by decide) (by decide)).2.2.2.1⟩

theorem stuckOnAbc_start (choice : Int) : stuckOnAbc (Shell.start "abc\n9\n" choice) :=
  ⟨rfl, rfl, rfl⟩

theorem stuckOnAbc_step (file : Option (List Str)) (s : Shell) (h : stuckOnAbc s) :
    stuckOnAbc (menuStep file s).1 ∧ (menuStep file s).2 = true ∧
    (menuStep file s).1.catalog.cout =
      s.catalog.cout ++ menuText ++ "0 is not a valid option.\n".toList ∧
    (menuStep file s).1.cin = { buf := "abc\n9\n".toList, eof := false, fail := true } := by
  obtain ⟨h1, h2, h3⟩ := h
  have hm : menuStep file s =
      ({ catalog := { root := s.catalog.root, courses := s.catalog.courses,
                      cout := s.catalog.cout ++ menuText ++ intToStr 0 ++
                        " is not a valid option.\n".toList },
         cin := { buf := "abc\n9\n".toList, eof := false, fail := true },
         choice := 0 }, true) := by
    simp [menuStep, h1]
  rw [hm]
  refine ⟨⟨rfl, h2, h3⟩, rfl, ?_, rfl⟩
  simp only [List.append_assoc]
  rfl

theorem stuckOnAbc_menuSteps (file : Option (List Str)) (n : Nat) (s : Shell)
    (h : stuckOnAbc s) : stuckOnAbc (menuSteps file n s) := by
  induction n generalizing s with
  | zero => exact h
  | succ n ih =>
    obtain ⟨h1, h2, _⟩ := stuckOnAbc_step file s h
    rw [menuSteps, h2]
    exact ih _ h1

/-- C15 at the failing input: on the menu input `abc`, followed by `9`, the first iteration
prints `0 is not a valid option.` and not the input entered; the stream stays failed with
the whole input unread, so after any number of iterations the next one again prints
`0 is not a valid option.` and goes on: the exit choice `9` is never read. The tree and the
list `courses` stay as they were. -/
theorem menuStep_non_numeric_input (file : Option (List Str)) (choice : Int) (n : Nat) :
    (menuStep file (Shell.start "abc\n9\n" choice)).1.catalog.cout =
      menuText ++ "0 is not a valid option.\n".toList ∧
    (menuStep file (Shell.start "abc\n9\n" choice)).1.catalog.cout ≠
      menuText ++ "abc is not a valid option.\n".toList ∧
    (menuStep file (menuSteps file n (Shell.start "abc\n9\n" choice))).1.catalog.cout =
      (menuSteps file n (Shell.start "abc\n9\n" choice)).catalog.cout ++ menuText ++
        "0 is not a valid option.\n".toList ∧
    (menuStep file (menuSteps file n (Shell.start "abc\n9\n" choice))).2 = true ∧
    (menuStep file (menuSteps file n (Shell.start "abc\n9\n" choice))).1.cin =
      { buf := "abc\n9\n".toList, eof := false, fail := true } ∧
    (menuSteps file n (Shell.start "abc\n9\n" choice)).catalog.root = Node.null ∧
    (menuSteps file n (Shell.start "abc\n9\n" choice)).catalog.courses = [] := by
  have h0 := stuckOnAbc_step file _ (stuckOnAbc_start choice)
  have hn := stuckOnAbc_menuSteps file n _ (stuckOnAbc_start choice)
  have hs := stuckOnAbc_step file _ hn
  have e : (menuStep file (Shell.start "abc\n9\n" choice)).1.catalog.cout =
      menuText ++ "0 is not a valid option.\n".toList := by
    rw [h0.2.2.1]
    rfl
  refine ⟨e, ?_, hs.2.2.1, hs.2.1, hs.2.2.2, hn.2.1, hn.2.2⟩
  rw [e]
  decide

end CoursePlanner
